import Mathlib

/-!
# SuiteSpot: persistence, shuffle bag and configuration store

A shallow embedding of the list/settings persistence code of the SuiteSpot
plugin (`SuiteSpot.cpp`, `Source.cpp`, `SuiteSpotConfig.cpp`) together with the
properties proved about it.

Modelling conventions

* `std::string` is the list of its characters (`Str`).
* A text file is `Option Str`: `none` when the file is absent or cannot be
  opened for reading, `some text` for the character sequence an `ifstream`
  delivers.  A write through an `ofstream` carries a flag `opened` for the
  result of `is_open()`.
* `int` is `Int`; the places where the 32-bit range matters (`operator>>`)
  clamp explicitly.  Container sizes are `Nat`.
-/

namespace SuiteSpot

/-! ## Strings and line streams -/

/-- Model of `std::string`. -/
abbrev Str := List Char

/-- Position of the first occurrence of `ch` (`std::string::find(char)`),
`none` standing for `npos`. -/
def find (ch : Char) : Str → Option Nat
  | [] => none
  | c :: cs => if c = ch then some 0 else (find ch cs).map (· + 1)

/-- The sequence of lines that `while (std::getline(in, line))` iterates over:
each call extracts characters up to the next line feed, which is consumed and
not stored; the call that hits end of file without extracting anything fails
and ends the loop. -/
def getlines : Str → List Str
  | [] => []
  | c :: cs =>
    if c = '\n' then [] :: getlines cs
    else
      match getlines cs with
      | [] => [[c]]
      | l :: ls => (c :: l) :: ls

/-! ## Training list (`MapList.h`, `SuiteSpot.cpp`, `Source.cpp`) -/

/-- Training pack entry (`struct TrainingEntry`). -/
structure TrainingEntry where
  code : Str
  name : Str
  deriving DecidableEq, Repr

/-- Body of the `while` loop of `SuiteSpot::LoadTrainingMaps` for one line. -/
def loadTrainingLine (RLTraining : List TrainingEntry) (line : Str) : List TrainingEntry :=
  if line.isEmpty then RLTraining
  else
    match find ',' line with
    | none => RLTraining
    | some pos =>
      let code := line.take pos
      let name := line.drop (pos + 1)
      if !code.isEmpty && !name.isEmpty then RLTraining ++ [{ code := code, name := name }]
      else RLTraining

/-- `SuiteSpot::LoadTrainingMaps`: the list is cleared, then every line of the
file is processed in order.  A missing or unopenable file leaves it empty. -/
def LoadTrainingMaps (file : Option Str) : List TrainingEntry :=
  match file with
  | none => []
  | some text => (getlines text).foldl loadTrainingLine []

/-- Characters streamed by the `for` loop of `SuiteSpot::SaveTrainingMaps`. -/
def trainingFileText (RLTraining : List TrainingEntry) : Str :=
  RLTraining.foldl (fun out e => out ++ e.code ++ [','] ++ e.name ++ ['\n']) []

/-- `SuiteSpot::SaveTrainingMaps`: the file is truncated and rewritten when the
stream opens, and left as it was otherwise. -/
def SaveTrainingMaps (opened : Bool) (RLTraining : List TrainingEntry) (file : Option Str) :
    Option Str :=
  if opened then some (trainingFileText RLTraining) else file

/-- In-memory training list together with its list file. -/
structure TrainingStore where
  RLTraining : List TrainingEntry
  trainingFile : Option Str
  deriving DecidableEq, Repr

/-- The `Add Training Map` button of `SuiteSpot::RenderSettings`; the two
arguments are the contents of the input buffers `newMapCode`, `newMapName`. -/
def AddTrainingMap (opened : Bool) (newMapCode newMapName : Str) (st : TrainingStore) :
    TrainingStore :=
  if newMapCode.length > 0 && newMapName.length > 0 then
    let l := st.RLTraining ++ [{ code := newMapCode, name := newMapName }]
    { RLTraining := l, trainingFile := SaveTrainingMaps opened l st.trainingFile }
  else st

/-- Whitespace in the sense of `isspace` in the "C" locale. -/
def isSpace (c : Char) : Bool :=
  c = ' ' || c = '\t' || c = '\n' || c = '\x0b' || c = '\x0c' || c = '\r'

/-- Text with leading and trailing whitespace removed. -/
def trim (s : Str) : Str :=
  ((s.dropWhile isSpace).reverse.dropWhile isSpace).reverse

/-- Entry contributed by one line, following the wording of the specification:
the line is non-empty, contains a comma, and the text before and after its
first comma is non-empty. -/
def specEntryOfLine (line : Str) : Option TrainingEntry :=
  if line ≠ [] ∧ ',' ∈ line ∧ line.takeWhile (fun c => c != ',') ≠ [] ∧
      (line.dropWhile (fun c => c != ',')).tail ≠ [] then
    some { code := line.takeWhile (fun c => c != ','),
           name := (line.dropWhile (fun c => c != ',')).tail }
  else none

/-! ## Training shuffle bag (`SuiteSpot.cpp`) -/

/-- `std::swap(v[i], v[j])` on a vector. -/
def swapAt (v : List Nat) (i j : Nat) : List Nat :=
  let x := v.getD i 0
  let y := v.getD j 0
  (v.set i y).set j x

/-- The Fisher-Yates loop `for (size_t n = size; n > 1; --n)` of
`BuildTrainingShuffleBag`.  `draw n` stands for the outcome of `udist(rng)` for
the distribution over `[0, n - 1]`; it is reduced modulo `n`, so that every
function `draw` describes an admissible run of the generator and every
admissible run is described by some `draw`. -/
def fisherYates (draw : Nat → Nat) : Nat → List Nat → List Nat
  | 0, bag => bag
  | n + 1, bag =>
    if n + 1 > 1 then
      let j := draw (n + 1) % (n + 1)
      fisherYates draw n (swapAt bag n j)
    else bag

/-- Shuffle state of the plugin: `trainingBag` and `trainingBagPos`. -/
structure ShuffleBag where
  trainingBag : List Nat
  trainingBagPos : Nat
  deriving DecidableEq, Repr

/-- `SuiteSpot::BuildTrainingShuffleBag`. -/
def BuildTrainingShuffleBag (RLTraining : List TrainingEntry) (draw : Nat → Nat) : ShuffleBag :=
  if RLTraining.isEmpty then { trainingBag := [], trainingBagPos := 0 }
  else
    { trainingBag := fisherYates draw RLTraining.length (List.range RLTraining.length),
      trainingBagPos := 0 }

/-- `SuiteSpot::NextTrainingIndex`: the returned index and the new shuffle
state.  `draw` describes the generator that a rebuild would use.  The stored
indices are below the list size, so the `static_cast<int>` is the identity. -/
def NextTrainingIndex (RLTraining : List TrainingEntry) (draw : Nat → Nat) (s : ShuffleBag) :
    Nat × ShuffleBag :=
  if RLTraining.isEmpty then (0, s)
  else
    let s1 := if s.trainingBagPos ≥ s.trainingBag.length then BuildTrainingShuffleBag RLTraining draw
              else s
    if s1.trainingBag.isEmpty then (0, s1)
    else (s1.trainingBag.getD s1.trainingBagPos 0,
          { s1 with trainingBagPos := s1.trainingBagPos + 1 })

/-- Successive calls of `NextTrainingIndex` on an unmodified training list, one
generator description per call: the returned indices and the final state. -/
def NextTrainingCalls (RLTraining : List TrainingEntry) :
    List (Nat → Nat) → ShuffleBag → List Nat × ShuffleBag
  | [], s => ([], s)
  | draw :: draws, s =>
    let r := NextTrainingIndex RLTraining draw s
    let rest := NextTrainingCalls RLTraining draws r.2
    (r.1 :: rest.1, rest.2)

/-! ## Scalar settings (`SuiteSpot.cpp`) -/

/-- Largest value of the 32-bit `int`. -/
def INT_MAX : Int := 2147483647

/-- Smallest value of the 32-bit `int`. -/
def INT_MIN : Int := -2147483648

/-- The persisted scalar state of the plugin (`SuiteSpot.h`). -/
structure Settings where
  autoQueue : Bool
  mapType : Int
  delayQueueSec : Int
  delayFreeplaySec : Int
  delayTrainingSec : Int
  delayWorkshopSec : Int
  currentIndex : Int
  currentTrainingIndex : Int
  currentWorkshopIndex : Int
  deriving DecidableEq, Repr

/-- The `int` fields of a settings record hold 32-bit values. -/
def Settings.inRange (s : Settings) : Prop :=
  (INT_MIN ≤ s.mapType ∧ s.mapType ≤ INT_MAX) ∧
  (INT_MIN ≤ s.delayQueueSec ∧ s.delayQueueSec ≤ INT_MAX) ∧
  (INT_MIN ≤ s.delayFreeplaySec ∧ s.delayFreeplaySec ≤ INT_MAX) ∧
  (INT_MIN ≤ s.delayTrainingSec ∧ s.delayTrainingSec ≤ INT_MAX) ∧
  (INT_MIN ≤ s.delayWorkshopSec ∧ s.delayWorkshopSec ≤ INT_MAX) ∧
  (INT_MIN ≤ s.currentIndex ∧ s.currentIndex ≤ INT_MAX) ∧
  (INT_MIN ≤ s.currentTrainingIndex ∧ s.currentTrainingIndex ≤ INT_MAX) ∧
  (INT_MIN ≤ s.currentWorkshopIndex ∧ s.currentWorkshopIndex ≤ INT_MAX)

instance (s : Settings) : Decidable s.inRange := by
  unfold Settings.inRange; infer_instance

/-- The nine persisted values in file order, `autoQueue` as `1`/`0`. -/
def Settings.values (s : Settings) : List Int :=
  [if s.autoQueue then 1 else 0, s.mapType, s.delayQueueSec, s.delayFreeplaySec,
   s.delayTrainingSec, s.delayWorkshopSec, s.currentIndex, s.currentTrainingIndex,
   s.currentWorkshopIndex]

/-- Decimal text produced by `file << v` for an `int`. -/
def printInt (v : Int) : Str :=
  if v < 0 then '-' :: Nat.toDigits 10 v.natAbs else Nat.toDigits 10 v.toNat

/-- Characters streamed by `SuiteSpot::SaveSettings`. -/
def settingsText (s : Settings) : Str :=
  printInt (if s.autoQueue then 1 else 0) ++ ['\n'] ++
  printInt s.mapType ++ ['\n'] ++
  printInt s.delayQueueSec ++ ['\n'] ++
  printInt s.delayFreeplaySec ++ ['\n'] ++
  printInt s.delayTrainingSec ++ ['\n'] ++
  printInt s.delayWorkshopSec ++ ['\n'] ++
  printInt s.currentIndex ++ ['\n'] ++
  printInt s.currentTrainingIndex ++ ['\n'] ++
  printInt s.currentWorkshopIndex ++ ['\n']

/-- `SuiteSpot::SaveSettings`: the whole file is rewritten when it opens. -/
def SaveSettings (opened : Bool) (s : Settings) (file : Option Str) : Option Str :=
  if opened then some (settingsText s) else file

/-- Input stream: the characters not yet consumed and the fail bit. -/
structure IStream where
  buf : Str
  fail : Bool
  deriving DecidableEq, Repr

/-- Value of a run of decimal digits. -/
def digitsValue (ds : Str) : Nat :=
  ds.foldl (fun a c => 10 * a + (c.toNat - '0'.toNat)) 0

/-- Formatted extraction `file >> v` for an `int` whose current value is `cur`.
A stream that has already failed extracts nothing and keeps `cur`.  Otherwise
leading whitespace is skipped; at end of input the extraction fails and keeps
`cur`; an optional sign and the following digits are consumed; without a digit
the extraction fails and stores `0`; a value outside the `int` range fails and
stores the nearest bound. -/
def extractInt (st : IStream) (cur : Int) : IStream × Int :=
  if st.fail then (st, cur)
  else
    let s := st.buf.dropWhile isSpace
    match s with
    | [] => ({ buf := [], fail := true }, cur)
    | c :: r =>
      let neg := c = '-'
      let s1 := if c = '-' ∨ c = '+' then r else s
      let ds := s1.takeWhile Char.isDigit
      let rest := s1.dropWhile Char.isDigit
      if ds.isEmpty then ({ buf := rest, fail := true }, 0)
      else
        let v : Int := if neg then - (digitsValue ds : Int) else (digitsValue ds : Int)
        if v > INT_MAX then ({ buf := rest, fail := true }, INT_MAX)
        else if v < INT_MIN then ({ buf := rest, fail := true }, INT_MIN)
        else ({ buf := rest, fail := false }, v)

/-- `SuiteSpot::LoadSettings`: nothing changes when the file does not open;
otherwise nine locals initialised to `0` are extracted in order and assigned to
the fields. -/
def LoadSettings (file : Option Str) (s : Settings) : Settings :=
  match file with
  | none => s
  | some text =>
    let aq := extractInt { buf := text, fail := false } 0
    let mt := extractInt aq.1 0
    let dq := extractInt mt.1 0
    let df := extractInt dq.1 0
    let dt := extractInt df.1 0
    let dw := extractInt dt.1 0
    let ci := extractInt dw.1 0
    let cti := extractInt ci.1 0
    let cwi := extractInt cti.1 0
    { autoQueue := aq.2 != 0
      mapType := mt.2
      delayQueueSec := dq.2
      delayFreeplaySec := df.2
      delayTrainingSec := dt.2
      delayWorkshopSec := dw.2
      currentIndex := ci.2
      currentTrainingIndex := cti.2
      currentWorkshopIndex := cwi.2 }

/-- The stream before the `i`-th extraction of `LoadSettings` (counting from 0). -/
def settingsStream (text : Str) : Nat → IStream
  | 0 => { buf := text, fail := false }
  | i + 1 => (extractInt (settingsStream text i) 0).1

/-- The input under the cursor (after whitespace) starts a decimal number: an
optional sign followed by a digit. -/
def numericStart (s : Str) : Bool :=
  match s.dropWhile isSpace with
  | [] => false
  | c :: r =>
    if c = '-' ∨ c = '+' then
      match r with
      | [] => false
      | d :: _ => d.isDigit
    else c.isDigit

/-! ## Key=value configuration file (`SuiteSpotConfig.cpp`) -/

namespace ss_cfg

/-- Body of the `while` loop of `ss_cfg::parseAll` for one line. -/
def parseLine (kv : List (Str × Str)) (line : Str) : List (Str × Str) :=
  if line.isEmpty || line.head? == some '#' then kv
  else
    match find '=' line with
    | none => kv
    | some pos => kv ++ [(line.take pos, line.drop (pos + 1))]

/-- `ss_cfg::parseAll`: the key/value pairs of the file in file order, none
when the file cannot be opened. -/
def parseAll (file : Option Str) : List (Str × Str) :=
  match file with
  | none => []
  | some text => (getlines text).foldl parseLine []

/-- The `for` loop of `ss_cfg::read` over the parsed entries. -/
def readLoop (key : Str) : List (Str × Str) → Str
  | [] => []
  | (k, v) :: entries => if k = key then v else readLoop key entries

/-- `ss_cfg::read`: the value of the first entry with this key, the empty
string when there is none. -/
def read (key : Str) (file : Option Str) : Str :=
  readLoop key (parseAll file)

/-- The first `for` loop of `ss_cfg::write`: the value of the first entry with
this key is replaced; the flag is `found`. -/
def updateLoop (key val : Str) : List (Str × Str) → List (Str × Str) × Bool
  | [] => ([], false)
  | (k, v) :: entries =>
    if k = key then ((k, val) :: entries, true)
    else ((k, v) :: (updateLoop key val entries).1, (updateLoop key val entries).2)

/-- Characters streamed by the final `for` loop of `ss_cfg::write`. -/
def cfgText (entries : List (Str × Str)) : Str :=
  entries.foldl (fun out e => out ++ e.1 ++ ['='] ++ e.2 ++ ['\n']) []

/-- The entries held by `ss_cfg::write` when it starts writing: the outcome of
the update loop, with the pair pushed at the back when the key was not found. -/
def updatedEntries (key val : Str) (entries : List (Str × Str)) : List (Str × Str) :=
  if !(updateLoop key val entries).2 then (updateLoop key val entries).1 ++ [(key, val)]
  else (updateLoop key val entries).1

/-- `ss_cfg::write`: read-modify-write of the whole file; nothing is written
when the output stream does not open. -/
def write (opened : Bool) (key val : Str) (file : Option Str) : Option Str :=
  if opened then some (cfgText (updatedEntries key val (parseAll file))) else file

end ss_cfg

/-- A key/value pair survives being written as the line `key=value` and parsed
back: the key has no `=` and no line feed and does not begin with `#`, the
value has no line feed. -/
def cleanPair (e : Str × Str) : Prop :=
  '=' ∉ e.1 ∧ '\n' ∉ e.1 ∧ e.1.head? ≠ some '#' ∧ '\n' ∉ e.2

instance (e : Str × Str) : Decidable (cleanPair e) := by
  unfold cleanPair; infer_instance

/-- A key/value pair fits on one line `key=value` whose first `=` ends the key:
the key has no `=` and no line feed, the value has no line feed. -/
def linePair (e : Str × Str) : Prop :=
  '=' ∉ e.1 ∧ '\n' ∉ e.1 ∧ '\n' ∉ e.2

instance (e : Str × Str) : Decidable (linePair e) := by
  unfold linePair; infer_instance

/-! ## Workshop scan (`SuiteSpot.cpp`) -/

/-- Workshop map entry (`struct WorkshopEntry`). -/
structure WorkshopEntry where
  filePath : Str
  name : Str
  deriving DecidableEq, Repr

/-- A `std::filesystem::path` on drive `C:`, as the list of its components
below the root directory. -/
abbrev Path := List Str

/-- `path::filename()`: the last component, empty for the root directory. -/
def filename (p : Path) : Str := p.getLast?.getD []

/-- `path::parent_path()`. -/
def parent_path (p : Path) : Path := p.dropLast

/-- Position of the last occurrence of `ch`. -/
def rfind (ch : Char) (s : Str) : Option Nat :=
  (find ch s.reverse).map (fun i => s.length - 1 - i)

/-- `path::extension()`: empty for `.` and `..`, for a filename without a
period, and when the only period is the first character; otherwise the text
from the last period on. -/
def extension (p : Path) : Str :=
  let fn := filename p
  if fn = ['.'] ∨ fn = ['.', '.'] then []
  else
    match rfind '.' fn with
    | none => []
    | some 0 => []
    | some (i + 1) => fn.drop (i + 1)

/-- `path::stem()`: the filename without its extension. -/
def stem (p : Path) : Str :=
  (filename p).take ((filename p).length - (extension p).length)

/-- `path::string()` in the native format. -/
def pathString (p : Path) : Str :=
  'C' :: ':' :: (p.map (fun c => '\\' :: c)).flatten

/-- Position of the first occurrence of `ch` at or after `start`
(`std::string::find(char, pos)`). -/
def findFrom (ch : Char) (s : Str) (start : Nat) : Option Nat :=
  (find ch (s.drop start)).map (· + start)

/-- Position of the first occurrence of the text `pat`
(`std::string::find(const char*)`). -/
def findStr (pat : Str) : Str → Option Nat
  | [] => if pat.isEmpty then some 0 else none
  | c :: cs =>
    if pat.isPrefixOf (c :: cs) then some 0 else (findStr pat cs).map (· + 1)

/-- The lambda `readJsonTitle` of `LoadWorkshopMaps`, applied to what the
stream delivers (`none` when it does not open). -/
def readJsonTitle (content : Option Str) : Str :=
  match content with
  | none => []
  | some s =>
    match findStr "\"title\"".toList s with
    | none => []
    | some t0 =>
      match findFrom ':' s t0 with
      | none => []
      | some t1 =>
        match findFrom '"' s t1 with
        | none => []
        | some t =>
          match findFrom '"' s (t + 1) with
          | none => []
          | some e => (s.drop (t + 1)).take (e - (t + 1))

/-- Outcome of `fs::exists(p, ec)`: the file is there, it is not there (no
error), or its status could not be determined (`ec` is set). -/
inductive Probe where
  | found
  | notFound
  | error
  deriving DecidableEq, Repr

/-- An entry produced by a directory iterator: its path and the result of
`is_regular_file(ec)`. -/
structure DirEntry where
  path : Path
  regular : Bool
  deriving DecidableEq, Repr

/-- The file system as the scan observes it. -/
structure FileSystem where
  /-- Outcome of `fs::exists(p, ec)`. -/
  probe : Path → Probe
  /-- Entries that `recursive_directory_iterator(root, ec)` yields, in iteration
  order; none when the iterator cannot be constructed. -/
  walk : Path → List DirEntry
  /-- Characters an `ifstream` on the path delivers, `none` when it does not
  open. -/
  text : Path → Option Str

/-- The two scan roots of `LoadWorkshopMaps`. -/
def roots : List Path :=
  [["Program Files".toList, "Epic Games".toList, "rocketleague".toList, "TAGame".toList,
    "CookedPCConsole".toList, "mods".toList],
   ["Program Files (x86)".toList, "Steam".toList, "steamapps".toList, "workshop".toList,
    "content".toList, "252950".toList]]

/-- Body of the inner `for` loop of `LoadWorkshopMaps`; the state is the list
collected so far and whether `ec` holds an error. -/
def scanEntry (fs : FileSystem) (acc : List WorkshopEntry × Bool) (e : DirEntry) :
    List WorkshopEntry × Bool :=
  if acc.2 then (acc.1, false)
  else if !e.regular then (acc.1, false)
  else
    let p := e.path
    if extension p ≠ ".upk".toList then (acc.1, false)
    else
      let stem := stem p
      let parent := filename (parent_path p)
      let display := if !parent.isEmpty then parent else stem
      let jsonPath := parent_path p ++ [stem ++ ".json".toList]
      match fs.probe jsonPath with
      | Probe.found =>
        let t := readJsonTitle (fs.text jsonPath)
        let display := if !t.isEmpty then t else display
        (acc.1 ++ [{ filePath := pathString p, name := display }], false)
      | Probe.notFound => (acc.1 ++ [{ filePath := pathString p, name := display }], false)
      | Probe.error => (acc.1 ++ [{ filePath := pathString p, name := display }], true)

/-- Body of the outer `for` loop of `LoadWorkshopMaps` for one root. -/
def scanRoot (fs : FileSystem) (RLWorkshop : List WorkshopEntry) (root : Path) :
    List WorkshopEntry :=
  if fs.probe root ≠ Probe.found then RLWorkshop
  else ((fs.walk root).foldl (scanEntry fs) (RLWorkshop, false)).1

/-- `a < b` on `std::string`: lexicographic comparison of the characters. -/
def strLt : Str → Str → Bool
  | [], [] => false
  | [], _ :: _ => true
  | _ :: _, [] => false
  | a :: as, b :: bs => if a < b then true else if b < a then false else strLt as bs

/-- Order in which the comparator `a.name < b.name` allows `a` before `b`. -/
def nameLe (a b : WorkshopEntry) : Prop := strLt b.name a.name = false

instance : DecidableRel nameLe := fun a b => by unfold nameLe; infer_instance

/-- `std::clamp(v, lo, hi)`: `lo` if `v < lo`, `hi` if `hi < v`, otherwise `v`.
For `lo = 0`, `hi = -1` (the call made on an empty list, outside the function's
precondition) the comparisons of the library implementations give the value
computed here. -/
def clamp (v lo hi : Int) : Int :=
  if v < lo then lo else if hi < v then hi else v

/-- `SuiteSpot::LoadWorkshopMaps`: the new workshop list and the new value of
`currentWorkshopIndex`.  `std::sort` is represented by an insertion sort. -/
def LoadWorkshopMaps (fs : FileSystem) (currentWorkshopIndex : Int) :
    List WorkshopEntry × Int :=
  let collected := roots.foldl (scanRoot fs) []
  let RLWorkshop := collected.insertionSort nameLe
  (RLWorkshop, clamp currentWorkshopIndex 0 ((RLWorkshop.length : Int) - 1))

/-- Display name of a content file, following the wording of the
specification: the title of the same-stem `.json` file in the same directory
when that file exists and the title is non-empty, otherwise the immediate
parent folder's name when it is non-empty, otherwise the file's stem. -/
def specWorkshopName (fs : FileSystem) (p : Path) : Str :=
  let jsonPath := parent_path p ++ [stem p ++ ".json".toList]
  let title := if fs.probe jsonPath = Probe.found then readJsonTitle (fs.text jsonPath) else []
  if title ≠ [] then title
  else if filename (parent_path p) ≠ [] then filename (parent_path p)
  else stem p

/-- Lexicographic `a ≤ b` on strings: equal, or `a < b`. -/
def strLe (a b : Str) : Prop := a = b ∨ strLt a b = true

instance (a b : Str) : Decidable (strLe a b) := by
  unfold strLe; infer_instance

/-- A small file system for the scan: under the first root the folder `m1`
holds `a.upk` with the metadata file `a.json` (title `Zed`); the root itself
holds `b.upk` and `C.UPK`. -/
def sampleFileSystem : FileSystem where
  probe := fun p =>
    if p = ["Program Files".toList, "Epic Games".toList, "rocketleague".toList, "TAGame".toList,
        "CookedPCConsole".toList, "mods".toList] then Probe.found
    else if p = ["Program Files".toList, "Epic Games".toList, "rocketleague".toList,
        "TAGame".toList, "CookedPCConsole".toList, "mods".toList, "m1".toList,
        "a.json".toList] then Probe.found
    else Probe.notFound
  walk := fun p =>
    if p = ["Program Files".toList, "Epic Games".toList, "rocketleague".toList, "TAGame".toList,
        "CookedPCConsole".toList, "mods".toList] then
      [{ path := p ++ ["m1".toList], regular := false },
       { path := p ++ ["m1".toList, "a.upk".toList], regular := true },
       { path := p ++ ["m1".toList, "a.json".toList], regular := true },
       { path := p ++ ["b.upk".toList], regular := true },
       { path := p ++ ["C.UPK".toList], regular := true }]
    else []
  text := fun p =>
    if p = ["Program Files".toList, "Epic Games".toList, "rocketleague".toList, "TAGame".toList,
        "CookedPCConsole".toList, "mods".toList, "m1".toList, "a.json".toList] then
      some "\x7b\"title\": \"Zed\"\x7d".toList
    else none

/-- An entry of a walk that leaves the scan's error code set: a regular `.upk`
file for which `fs::exists(jsonPath, ec)` fails. The loop still records the
file, and its next iteration takes `if (ec) { ec.clear(); continue; }`, so the
entry that follows is not looked at. -/
def setsErrorCode (fs : FileSystem) (e : DirEntry) : Prop :=
  e.regular = true ∧ extension e.path = ".upk".toList ∧
    fs.probe (parent_path e.path ++ [stem e.path ++ ".json".toList]) = Probe.error

instance (fs : FileSystem) (e : DirEntry) : Decidable (setsErrorCode fs e) := by
  unfold setsErrorCode; infer_instance

/-! ## Path resolver and workshop-root detection (`ss_paths`, `ss_epic`) -/

/-- The process environment as `std::getenv` sees it: `none` for a variable
that is not set. -/
abbrev Env := Str → Option Str

/-- Directory separator of a native Windows path. -/
def isSeparator (c : Char) : Bool := c = '\\' || c = '/'

/-- `p / q` on the text of two paths, for a relative `q` without root name (all
right operands in this program are such literals): `q` itself when `p` is
empty, no separator after a `p` that ends in one or is a bare drive name
(`C:`), otherwise the two joined by the preferred separator. -/
def pathDiv (p q : Str) : Str :=
  match p.getLast? with
  | none => q
  | some c =>
    if isSeparator c || (p.length = 2 && c = ':') then p ++ q else p ++ '\\' :: q

/-- Several `/` in a row: `base / c₁ / c₂ / …`. -/
def pathJoin (base : Str) (comps : List Str) : Str := comps.foldl pathDiv base

namespace ss_paths

/-- `ss_paths::epicModsDefault`. -/
def epicModsDefault (env : Env) : Str :=
  match env "USERPROFILE".toList with
  | none => []
  | some up =>
    pathJoin up ["Documents".toList, "My Games".toList, "Rocket League".toList, "TAGame".toList,
      "CookedPCConsole".toList, "mods".toList]

/-- `ss_paths::steamWorkshopDefault`; `pathExists` is `fs::exists`. -/
def steamWorkshopDefault (env : Env) (pathExists : Str → Bool) : Str :=
  match env "PROGRAMFILES(X86)".toList with
  | none => []
  | some sp =>
    let base := pathJoin sp ["Steam".toList, "steamapps".toList, "workshop".toList,
      "content".toList, "252950".toList]
    if pathExists base then base else []

/-- `ss_paths::bmDataRoot`. -/
def bmDataRoot (env : Env) : Str :=
  match env "APPDATA".toList with
  | none => []
  | some app => pathJoin app ["bakkesmod".toList, "bakkesmod".toList, "data".toList]

/-- `ss_paths::suiteTrainingDir`. -/
def suiteTrainingDir (env : Env) : Str := pathDiv (bmDataRoot env) "SuiteTraining".toList

/-- `ss_paths::suiteWorkshopsDir`. -/
def suiteWorkshopsDir (env : Env) : Str := pathDiv (bmDataRoot env) "SuiteWorkshops".toList

end ss_paths

/-- `SuiteSpot::GetDataRoot`. -/
def GetDataRoot (env : Env) : Str :=
  match env "APPDATA".toList with
  | none => []
  | some appdata => pathJoin appdata ["bakkesmod".toList, "bakkesmod".toList, "data".toList]

/-- `SuiteSpot::GetSuiteTrainingDir`. -/
def GetSuiteTrainingDir (env : Env) : Str := pathDiv (GetDataRoot env) "SuiteTraining".toList

/-- `SuiteSpot::GetSuiteWorkshopsDir`. -/
def GetSuiteWorkshopsDir (env : Env) : Str := pathDiv (GetDataRoot env) "SuiteWorkshops".toList

/-- `SuiteSpot::GetTrainingFilePath`. -/
def GetTrainingFilePath (env : Env) : Str :=
  pathDiv (GetSuiteTrainingDir env) "SuiteSpotTrainingMaps.txt".toList

/-- What a path names in a directory tree: a regular file, a directory with
its entries (name and node, in iteration order), or something else. -/
inductive FsNode where
  | file
  | dir (children : List (Str × FsNode))
  | other

/-- A directory tree as the detection sees it: the node a path text names
(`none` when nothing exists there) and the characters an `ifstream` delivers. -/
structure DirTree where
  node : Str → Option FsNode
  text : Str → Option Str

/-- `is_regular_file()` of a directory entry. -/
def FsNode.isRegular : FsNode → Bool
  | FsNode.file => true
  | _ => false

namespace ss_epic

/-- `ss_epic::exists_dir`. -/
def exists_dir (t : DirTree) (p : Str) : Bool :=
  match t.node p with
  | some (FsNode.dir _) => true
  | _ => false

/-- `ss_epic::looksLikeMapFile`, which depends on the path only through its
filename: the extension is lower-cased and compared with the four map
extensions. -/
def looksLikeMapFile (name : Str) : Bool :=
  let ext := (extension [name]).map Char.toLower
  ext = ".udk".toList || ext = ".upk".toList || ext = ".pak".toList || ext = ".zip".toList

/-- A `for` loop over the entries of one directory that returns `true` at the
first regular file that looks like a map file. -/
def anyMapFile : List (Str × FsNode) → Bool
  | [] => false
  | e :: rest => if e.2.isRegular && looksLikeMapFile e.1 then true else anyMapFile rest

/-- The second loop of `looksLikeMapDir`: the immediate subdirectories. -/
def anySubdirMapFile : List (Str × FsNode) → Bool
  | [] => false
  | e :: rest =>
    match e.2 with
    | FsNode.dir sub => if anyMapFile sub then true else anySubdirMapFile rest
    | _ => anySubdirMapFile rest

/-- `ss_epic::looksLikeMapDir` on a tree whose status queries succeed (no
`ec` is ever set): first the files of the directory itself, then those of its
immediate subdirectories. -/
def looksLikeMapDir (t : DirTree) (p : Str) : Bool :=
  if !exists_dir t p then false
  else
    match t.node p with
    | some (FsNode.dir children) =>
      if anyMapFile children then true else anySubdirMapFile children
    | _ => false

/-- Body of the `while (std::getline(in, line))` loop of `candidateFolders`
for one line of `libraryfolders.vdf`. -/
def vdfLine (cand : List Str) (line : Str) : List Str :=
  match findStr "\"path\"".toList line with
  | none => cand
  | some pos =>
    match findFrom '"' line (pos + 6) with
    | none => cand
    | some q1 =>
      match findFrom '"' line (q1 + 1) with
      | none => cand
      | some q2 =>
        let p := (line.drop (q1 + 1)).take (q2 - (q1 + 1))
        cand ++ [pathJoin p ["steamapps".toList, "workshop".toList, "content".toList,
          "252950".toList]]

/-- `ss_epic::candidateFolders`. -/
def candidateFolders (env : Env) (t : DirTree) : List Str :=
  let cand : List Str :=
    match env "APPDATA".toList with
    | none => []
    | some app =>
      let dataRoot := pathJoin app ["bakkesmod".toList, "bakkesmod".toList, "data".toList]
      [pathDiv dataRoot "SuiteWorkshops".toList, pathDiv dataRoot "Workshop".toList]
  match env "PROGRAMFILES(X86)".toList with
  | none => cand
  | some pf86 =>
    let cand := cand ++ [pathJoin pf86 ["Steam".toList, "steamapps".toList, "workshop".toList,
      "content".toList, "252950".toList]]
    let vdf := pathJoin pf86 ["Steam".toList, "steamapps".toList, "libraryfolders.vdf".toList]
    match t.node vdf with
    | some FsNode.file =>
      match t.text vdf with
      | none => cand
      | some text => (getlines text).foldl vdfLine cand
    | _ => cand

/-- The `for` loop of `detectWorkshopRoot` over the candidates. -/
def detectLoop (t : DirTree) : List Str → Str
  | [] => []
  | c :: rest => if looksLikeMapDir t c then c else detectLoop t rest

/-- `ss_epic::detectWorkshopRoot`. -/
def detectWorkshopRoot (env : Env) (t : DirTree) : Str :=
  detectLoop t (candidateFolders env t)

end ss_epic

/-- Two texts are equal up to the case of their letters. -/
def eqIgnoreCase (a b : Str) : Prop := a.map Char.toLower = b.map Char.toLower

/-- The name carries one of the map extensions `.udk`, `.upk`, `.pak`, `.zip`
in any letter case (wording of the specification). -/
def specMapFile (name : Str) : Prop :=
  ∃ ext ∈ [".udk".toList, ".upk".toList, ".pak".toList, ".zip".toList],
    eqIgnoreCase (extension [name]) ext

/-- The candidate is an existing directory that contains a regular file with a
map extension directly or in one of its immediate subdirectories (wording of
the specification). -/
def specQualifies (t : DirTree) (c : Str) : Prop :=
  ∃ children, t.node c = some (FsNode.dir children) ∧
    ((∃ n, (n, FsNode.file) ∈ children ∧ specMapFile n) ∨
     (∃ d sub n, (d, FsNode.dir sub) ∈ children ∧ (n, FsNode.file) ∈ sub ∧ specMapFile n))

/-- An environment with `APPDATA = A` and `PROGRAMFILES(X86) = P`. -/
def sampleEnv : Env := fun v =>
  if v = "APPDATA".toList then some "A".toList
  else if v = "PROGRAMFILES(X86)".toList then some "P".toList
  else none

/-- A tree for the detection: the first candidate `SuiteWorkshops` holds a map
file two levels deep only, the second candidate `Workshop` holds `Map.UDK` in
the subdirectory `sub`, the third candidate (the Steam content folder) holds
`x.zip` directly. -/
def sampleDirTree : DirTree where
  node := fun p =>
    if p = "A\\bakkesmod\\bakkesmod\\data\\SuiteWorkshops".toList then
      some (FsNode.dir [("a".toList, FsNode.dir [("b".toList,
        FsNode.dir [("deep.upk".toList, FsNode.file)])]), ("readme.txt".toList, FsNode.file)])
    else if p = "A\\bakkesmod\\bakkesmod\\data\\Workshop".toList then
      some (FsNode.dir [("sub".toList, FsNode.dir [("Map.UDK".toList, FsNode.file)])])
    else if p = "P\\Steam\\steamapps\\workshop\\content\\252950".toList then
      some (FsNode.dir [("x.zip".toList, FsNode.file)])
    else none
  text := fun _ => none

/-! ## Directory mirror (`SuiteSpot.cpp`) -/

/-- What the mirror looks at in a regular file: byte size, last-write time and
content. -/
structure FileInfo where
  size : Nat
  mtime : Int
  content : Str
  deriving DecidableEq, Repr

/-- Kind of an entry of the source walk: `is_directory()`, `is_regular_file()`
(with the file's data), or neither. -/
inductive EntryKind where
  | directory
  | regular (info : FileInfo)
  | other
  deriving DecidableEq, Repr

/-- An entry that `recursive_directory_iterator(src, ec)` yields, with its path
relative to `src`. -/
structure SrcEntry where
  rel : Path
  kind : EntryKind
  deriving DecidableEq, Repr

/-- The regular files below the destination, by relative path. -/
abbrev FileTree := Path → Option FileInfo

/-- Body of the `for` loop of `SuiteSpot::MirrorDirectory` on a tree whose
operations succeed (no `ec` is set); the state is the destination tree and the
list of files copied so far.  `copy_file` with `overwrite_existing` gives the
target the content, the size and, as on the platform of the plugin (Windows,
`CopyFileW`), the last-write time of the source.  Creating directories changes
no regular file. -/
def mirrorEntry (st : FileTree × List Path) (e : SrcEntry) : FileTree × List Path :=
  match e.kind with
  | EntryKind.directory => st
  | EntryKind.regular info =>
    let copyNeeded :=
      match st.1 e.rel with
      | some d => decide (info.mtime ≠ d.mtime) || decide (info.size ≠ d.size)
      | none => true
    if copyNeeded then (Function.update st.1 e.rel (some info), st.2 ++ [e.rel]) else st
  | EntryKind.other => st

/-- `SuiteSpot::MirrorDirectory`: the destination tree afterwards and the files
copied, in order.  `src` is `none` when the source does not exist or is no
directory. -/
def MirrorDirectory (src : Option (List SrcEntry)) (dst : FileTree) : FileTree × List Path :=
  match src with
  | none => (dst, [])
  | some entries => entries.foldl mirrorEntry (dst, [])

/-- The destination holds, for a regular source entry, a file of the same
last-write time and size. -/
def upToDate (d : FileTree) (e : SrcEntry) : Prop :=
  ∀ i, e.kind = EntryKind.regular i →
    ∃ x, d e.rel = some x ∧ x.mtime = i.mtime ∧ x.size = i.size

/-- A source walk: the folder `m`, the file `m/a.upk` and the file `b.upk`. -/
def sampleWalk : List SrcEntry :=
  [{ rel := ["m".toList], kind := EntryKind.directory },
   { rel := ["m".toList, "a.upk".toList],
     kind := EntryKind.regular { size := 3, mtime := 100, content := "abc".toList } },
   { rel := ["b.upk".toList],
     kind := EntryKind.regular { size := 2, mtime := 50, content := "xy".toList } }]

/-! ## Match-end dispatch (`SuiteSpot.cpp`) -/

/-- Freeplay map entry (`struct MapEntry`). -/
structure MapEntry where
  code : Str
  name : Str
  deriving DecidableEq, Repr

/-- What `safeExecute` hands to the host: a command executed at once
(`cvarManager->executeCommand`) or a command scheduled after `delaySec`
seconds (`gameWrapper->SetTimeout`, which receives the delay converted to
`float`). -/
inductive HostCall where
  | executeCommand (cmd : Str)
  | setTimeout (cmd : Str) (delaySec : Int)
  deriving DecidableEq, Repr

/-- The command string of a host call. -/
def HostCall.cmd : HostCall → Str
  | HostCall.executeCommand c => c
  | HostCall.setTimeout c _ => c

/-- The lambda `safeExecute` of `GameEndedEvent`. -/
def safeExecute (delaySec : Int) (cmd : Str) : HostCall :=
  if delaySec ≤ 0 then HostCall.executeCommand cmd else HostCall.setTimeout cmd delaySec

/-- State of the plugin instance (`SuiteSpot.h`) together with the three map
lists (`MapList.h`). -/
structure Plugin where
  enabled : Bool
  settings : Settings
  trainingShuffleEnabled : Bool
  bag : ShuffleBag
  RLMaps : List MapEntry
  RLTraining : List TrainingEntry
  RLWorkshop : List WorkshopEntry
  deriving DecidableEq, Repr

/-- The training index that `GameEndedEvent` stores into
`currentTrainingIndex` on a non-empty list, with the shuffle state afterwards:
the next index of the bag when auto-shuffle is on, the clamped current index
otherwise. -/
def selectTrainingIndex (draw : Nat → Nat) (s : Plugin) : Int × ShuffleBag :=
  if s.trainingShuffleEnabled then
    ((NextTrainingIndex s.RLTraining draw s.bag).1, (NextTrainingIndex s.RLTraining draw s.bag).2)
  else
    (clamp s.settings.currentTrainingIndex 0 ((s.RLTraining.length : Int) - 1), s.bag)

/-- The dispatch on `mapType` in `GameEndedEvent`: the host calls made and the
state afterwards; `none` when a list is indexed outside its bounds, where the
program has no defined behaviour. -/
def dispatchLoad (draw : Nat → Nat) (s : Plugin) : Option (List HostCall × Plugin) :=
  if s.settings.mapType = 0 then
    if s.settings.currentIndex < 0 ∨ s.settings.currentIndex ≥ (s.RLMaps.length : Int) then
      some ([], s)
    else
      match s.RLMaps[s.settings.currentIndex.toNat]? with
      | none => none
      | some m =>
        some ([safeExecute s.settings.delayFreeplaySec ("load_freeplay ".toList ++ m.code)], s)
  else if s.settings.mapType = 1 then
    if s.RLTraining.isEmpty then some ([], s)
    else
      let sel := selectTrainingIndex draw s
      let s1 : Plugin :=
        { s with settings := { s.settings with currentTrainingIndex := sel.1 }, bag := sel.2 }
      match s.RLTraining[sel.1.toNat]? with
      | none => none
      | some t =>
        some ([safeExecute s.settings.delayTrainingSec ("load_training ".toList ++ t.code)], s1)
  else if s.settings.mapType = 2 then
    if s.RLWorkshop.isEmpty then some ([], s)
    else
      let idx := clamp s.settings.currentWorkshopIndex 0 ((s.RLWorkshop.length : Int) - 1)
      let s1 : Plugin := { s with settings := { s.settings with currentWorkshopIndex := idx } }
      match s.RLWorkshop[idx.toNat]? with
      | none => none
      | some w =>
        some ([safeExecute s.settings.delayWorkshopSec
          ("load_workshop \"".toList ++ w.filePath ++ "\"".toList)], s1)
  else some ([], s)

/-- The `if (autoQueue)` block at the end of `GameEndedEvent`. -/
def queueCalls (s : Settings) : List HostCall :=
  if s.autoQueue then [safeExecute s.delayQueueSec "queue".toList] else []

/-- `SuiteSpot::GameEndedEvent`: the host calls made, in order, and the state
afterwards (the log lines are left out). -/
def GameEndedEvent (draw : Nat → Nat) (s : Plugin) : Option (List HostCall × Plugin) :=
  if !s.enabled then some ([], s)
  else
    match dispatchLoad draw s with
    | none => none
    | some r => some (r.1 ++ queueCalls r.2.settings, r.2)

/-- The command loads a map (`load_freeplay`, `load_training`, `load_workshop`). -/
def isLoadCommand (cmd : Str) : Bool := "load_".toList.isPrefixOf cmd

/-- The command enters the matchmaking queue. -/
def isQueueCommand (cmd : Str) : Bool := cmd = "queue".toList

/-- The delay configured for the load command of the current map type. -/
def loadDelay (s : Settings) : Int :=
  if s.mapType = 0 then s.delayFreeplaySec
  else if s.mapType = 1 then s.delayTrainingSec
  else s.delayWorkshopSec

/-- The one situation in which `GameEndedEvent` indexes a list outside its
bounds: training with auto-shuffle on, and an index in the bag that is not
below the length of the training list. -/
def shuffleIndexOutOfRange (draw : Nat → Nat) (s : Plugin) : Prop :=
  s.enabled = true ∧ s.settings.mapType = 1 ∧ s.RLTraining ≠ [] ∧
    s.trainingShuffleEnabled = true ∧
    s.RLTraining.length ≤ (NextTrainingIndex s.RLTraining draw s.bag).1

/-- A plugin state: enabled, auto-queue on with 5 s delay, training selected
with 2 s delay, two training packs, two workshop maps, one freeplay map. -/
def samplePlugin : Plugin where
  enabled := true
  settings := { autoQueue := true, mapType := 1, delayQueueSec := 5, delayFreeplaySec := 0,
                delayTrainingSec := 2, delayWorkshopSec := 0, currentIndex := 0,
                currentTrainingIndex := 1, currentWorkshopIndex := 7 }
  trainingShuffleEnabled := false
  bag := { trainingBag := [], trainingBagPos := 0 }
  RLMaps := [{ code := "Park_P".toList, name := "Beckwith Park".toList }]
  RLTraining := [{ code := "TM_Aerial".toList, name := "Aerial Training".toList },
                 { code := "TM_Wall".toList, name := "Wall Shots".toList }]
  RLWorkshop := [{ filePath := "C:\\maps\\a.upk".toList, name := "A".toList },
                 { filePath := "C:\\maps\\b.upk".toList, name := "B".toList }]

/-! ## Start-up and user-interface steps (`SuiteSpot.cpp`, `Source.cpp`) -/

/-- The member initialisers of the settings fields in `SuiteSpot.h`. -/
def defaultSettings : Settings :=
  { autoQueue := false, mapType := 0, delayQueueSec := 0, delayFreeplaySec := 0,
    delayTrainingSec := 0, delayWorkshopSec := 0, currentIndex := 0,
    currentTrainingIndex := 0, currentWorkshopIndex := 0 }

/-- The state-building part of `SuiteSpot::onLoad`: `LoadSettings`, then
`LoadTrainingMaps`, then `LoadWorkshopMaps`, on a freshly constructed plugin.
`RLMaps` is the built-in freeplay table. -/
def onLoad (RLMaps : List MapEntry) (settingsFile trainingFile : Option Str)
    (fs : FileSystem) : Plugin :=
  let settings := LoadSettings settingsFile defaultSettings
  let workshop := LoadWorkshopMaps fs settings.currentWorkshopIndex
  { enabled := false
    settings := { settings with currentWorkshopIndex := workshop.2 }
    trainingShuffleEnabled := false
    bag := { trainingBag := [], trainingBagPos := 0 }
    RLMaps := RLMaps
    RLTraining := LoadTrainingMaps trainingFile
    RLWorkshop := workshop.1 }

/-- `v[i]` on a vector with an `int` index: `none` when the index is negative
or not below the size, where the access has no defined behaviour. -/
def indexInt {α : Type} (l : List α) (i : Int) : Option α :=
  if i < 0 then none else l[i.toNat]?

/-- The preview text of the `Training Packs` combo in
`SuiteSpot::RenderSettings` (drawn when `mapType == 1`):
`RLTraining.empty() ? "<none>" : RLTraining[currentTrainingIndex].name`. -/
def trainingComboPreview (s : Plugin) : Option Str :=
  if s.RLTraining.isEmpty then some "<none>".toList
  else (indexInt s.RLTraining s.settings.currentTrainingIndex).map (fun e => e.name)

/-- The `Auto-Shuffle` checkbox of `RenderSettings` when clicked: the flag is
flipped and the bag is rebuilt when the flag is now set. -/
def ToggleAutoShuffle (draw : Nat → Nat) (s : Plugin) : Plugin :=
  if !s.trainingShuffleEnabled then
    { s with trainingShuffleEnabled := true, bag := BuildTrainingShuffleBag s.RLTraining draw }
  else { s with trainingShuffleEnabled := false }

/-- A step of the running plugin. -/
inductive Step where
  /-- The `Add Training Map` button with the two buffers; `opened` and `file`
  describe the list file that is rewritten. -/
  | addTrainingMap (opened : Bool) (code name : Str) (file : Option Str)
  /-- A click on the `Auto-Shuffle` checkbox. -/
  | toggleAutoShuffle (draw : Nat → Nat)
  /-- A match-end event. -/
  | gameEnded (draw : Nat → Nat)
  /-- Any change of the enable flag and of the scalar settings (the enable
  cvar, the map-type buttons, the delay inputs, the combo selections). -/
  | configure (enabled : Bool) (settings : Settings)

/-- Effect of one step; `none` when a match-end event indexes a list outside
its bounds. -/
def applyStep (s : Plugin) : Step → Option Plugin
  | Step.addTrainingMap opened code name file =>
    some { s with
      RLTraining := (AddTrainingMap opened code name
        { RLTraining := s.RLTraining, trainingFile := file }).RLTraining }
  | Step.toggleAutoShuffle draw => some (ToggleAutoShuffle draw s)
  | Step.gameEnded draw => (GameEndedEvent draw s).map Prod.snd
  | Step.configure enabled settings => some { s with enabled := enabled, settings := settings }

/-- Effect of a sequence of steps, first step first. -/
def runSteps : List Step → Plugin → Option Plugin
  | [], s => some s
  | step :: rest, s =>
    match applyStep s step with
    | none => none
    | some s1 => runSteps rest s1

/-- The cursor is at most the bag length and every index stored in the bag is
below the length of the training list. -/
def bagInvariant (s : Plugin) : Prop :=
  s.bag.trainingBagPos ≤ s.bag.trainingBag.length ∧
  ∀ i ∈ s.bag.trainingBag, i < s.RLTraining.length

/-! ## Properties -/

open ss_cfg

theorem getlines_append_newline (l rest : Str) (h : '\n' ∉ l) :
    getlines (l ++ '\n' :: rest) = l :: getlines rest := by
  induction l with
  | nil => simp [getlines]
  | cons c l ih =>
    have hc : c ≠ '\n' := fun e => h (by simp [e])
    have hl : '\n' ∉ l := fun e => h (by simp [e])
    simp [getlines, hc, ih hl]

theorem find_none_iff (ch : Char) (s : Str) : find ch s = none ↔ ch ∉ s := by
  induction s with
  | nil => simp [find]
  | cons c s ih =>
    by_cases hc : c = ch
    · simp [find, hc]
    · have : ¬ ch = c := fun e => hc e.symm
      simp [find, hc, ih, this]

theorem find_some_split (ch : Char) (s : Str) (pos : Nat) (h : find ch s = some pos) :
    s.take pos = s.takeWhile (fun c => c != ch) ∧
    s.drop (pos + 1) = (s.dropWhile (fun c => c != ch)).tail ∧ ch ∈ s := by
  induction s generalizing pos with
  | nil => simp [find] at h
  | cons c s ih =>
    by_cases hc : c = ch
    · simp [find, hc] at h
      subst h
      simp [hc]
    · simp only [find, hc, if_false, Option.map_eq_some'] at h
      obtain ⟨p, hp, rfl⟩ := h
      obtain ⟨h1, h2, h3⟩ := ih p hp
      simp [hc, h1, h2, h3]

theorem loadTrainingLine_eq (acc : List TrainingEntry) (line : Str) :
    loadTrainingLine acc line = acc ++ (specEntryOfLine line).toList := by
  unfold loadTrainingLine specEntryOfLine
  by_cases hl : line = []
  · simp [hl]
  · cases hf : find ',' line with
    | none =>
      have := (find_none_iff ',' line).1 hf
      simp [hl, this]
    | some pos =>
      obtain ⟨h1, h2, h3⟩ := find_some_split ',' line pos hf
      simp only [h1, h2]
      by_cases ha : line.takeWhile (fun c => c != ',') = []
      · simp [hl, ha]
      · by_cases hb : (line.dropWhile (fun c => c != ',')).tail = []
        · simp [hl, hb]
        · simp [hl, ha, hb, h3]

theorem foldl_loadTrainingLine (acc : List TrainingEntry) (ls : List Str) :
    ls.foldl loadTrainingLine acc = acc ++ ls.filterMap specEntryOfLine := by
  induction ls generalizing acc with
  | nil => simp
  | cons l ls ih =>
    rw [List.foldl_cons, ih, loadTrainingLine_eq]
    cases h : specEntryOfLine l <;> simp [List.filterMap_cons, h]

theorem takeWhile_ne_append (ch : Char) (a b : Str) (h : ch ∉ a) :
    (a ++ ch :: b).takeWhile (fun c => c != ch) = a ∧
    (a ++ ch :: b).dropWhile (fun c => c != ch) = ch :: b := by
  induction a with
  | nil => simp
  | cons c a ih =>
    have hc : c ≠ ch := fun e => h (by simp [e])
    have ha : ch ∉ a := fun e => h (by simp [e])
    simp [hc, ih ha]

theorem trainingFileText_foldl (acc : Str) (l : List TrainingEntry) :
    l.foldl (fun out e => out ++ e.code ++ [','] ++ e.name ++ ['\n']) acc
      = acc ++ trainingFileText l := by
  unfold trainingFileText
  induction l generalizing acc with
  | nil => simp
  | cons e l ih =>
    rw [List.foldl_cons, ih, List.foldl_cons, ih (([] : Str) ++ e.code ++ [','] ++ e.name ++ ['\n'])]
    simp

theorem trainingFileText_cons (e : TrainingEntry) (l : List TrainingEntry) :
    trainingFileText (e :: l) = (e.code ++ ',' :: e.name) ++ '\n' :: trainingFileText l := by
  have := trainingFileText_foldl (([] : Str) ++ e.code ++ [','] ++ e.name ++ ['\n']) l
  simp only [trainingFileText, List.foldl_cons] at this ⊢
  rw [this]
  simp

theorem specEntryOfLine_wellFormed (e : TrainingEntry) (hc : e.code ≠ []) (hn : e.name ≠ [])
    (hcomma : ',' ∉ e.code) : specEntryOfLine (e.code ++ ',' :: e.name) = some e := by
  obtain ⟨h1, h2⟩ := takeWhile_ne_append ',' e.code e.name hcomma
  unfold specEntryOfLine
  rw [h1, h2]
  simp [hc, hn]

/-- C1 (as amended): a training list whose codes are non-empty and free of commas and line
feeds, and whose names are non-empty and free of line feeds, is reproduced entry for entry
and in order by `LoadTrainingMaps` from the file written by `SaveTrainingMaps`. -/
theorem training_round_trip (l : List TrainingEntry) (file : Option Str)
    (h : ∀ e ∈ l, e.code ≠ [] ∧ e.name ≠ [] ∧ ',' ∉ e.code ∧ '\n' ∉ e.code ∧ '\n' ∉ e.name) :
    LoadTrainingMaps (SaveTrainingMaps true l file) = l := by
  simp only [SaveTrainingMaps, if_true, LoadTrainingMaps]
  rw [foldl_loadTrainingLine, List.nil_append]
  induction l with
  | nil => simp [trainingFileText, getlines]
  | cons e l ih =>
    obtain ⟨hc, hn, hcomma, hnl1, hnl2⟩ := h e (by simp)
    have hline : '\n' ∉ e.code ++ ',' :: e.name := by
      simp only [List.mem_append, List.mem_cons, not_or]
      exact ⟨hnl1, by decide, hnl2⟩
    rw [trainingFileText_cons, getlines_append_newline _ _ hline, List.filterMap_cons,
      specEntryOfLine_wellFormed e hc hn hcomma]
    simp only [List.cons.injEq, true_and]
    exact ih (fun x hx => h x (List.mem_cons_of_mem _ hx))

/-- Witness for `training_round_trip`: a two-entry list, the second name holding a comma. -/
theorem training_round_trip_witness :
    (∀ e ∈ ([⟨"TM_Aerial".toList, "Aerial Training".toList⟩,
        ⟨"TM_Wall".toList, "Wall, Shots".toList⟩] : List TrainingEntry),
      e.code ≠ [] ∧ e.name ≠ [] ∧ ',' ∉ e.code ∧ '\n' ∉ e.code ∧ '\n' ∉ e.name) ∧
    LoadTrainingMaps (SaveTrainingMaps true
      [⟨"TM_Aerial".toList, "Aerial Training".toList⟩, ⟨"TM_Wall".toList, "Wall, Shots".toList⟩] none)
      = [⟨"TM_Aerial".toList, "Aerial Training".toList⟩, ⟨"TM_Wall".toList, "Wall, Shots".toList⟩] :=
  ⟨by decide, training_round_trip _ none (by decide)⟩

/-- C1 fails as stated: every field below is non-empty, yet the entry with code `a,b` and
name `c` is saved as the line `a,b,c` and loaded back with code `a` and name `b,c`; the
entry with code `c` and name `x\ny` is loaded back with name `x`; and the entry with code
`a\nb` and name `c` is loaded back with code `b`. -/
theorem training_round_trip_counterexample :
    ("a,b".toList ≠ [] ∧ "c".toList ≠ [] ∧ "x\ny".toList ≠ [] ∧ "a\nb".toList ≠ []) ∧
    (LoadTrainingMaps (SaveTrainingMaps true [⟨"a,b".toList, "c".toList⟩] none)
        = [⟨"a".toList, "b,c".toList⟩] ∧
      LoadTrainingMaps (SaveTrainingMaps true [⟨"a,b".toList, "c".toList⟩] none)
        ≠ [⟨"a,b".toList, "c".toList⟩]) ∧
    (LoadTrainingMaps (SaveTrainingMaps true [⟨"c".toList, "x\ny".toList⟩] none)
        = [⟨"c".toList, "x".toList⟩] ∧
      LoadTrainingMaps (SaveTrainingMaps true [⟨"c".toList, "x\ny".toList⟩] none)
        ≠ [⟨"c".toList, "x\ny".toList⟩]) ∧
    (LoadTrainingMaps (SaveTrainingMaps true [⟨"a\nb".toList, "c".toList⟩] none)
        = [⟨"b".toList, "c".toList⟩] ∧
      LoadTrainingMaps (SaveTrainingMaps true [⟨"a\nb".toList, "c".toList⟩] none)
        ≠ [⟨"a\nb".toList, "c".toList⟩]) := by
  decide

/-- C4: `LoadTrainingMaps` returns, in file order, exactly the entries of the well-formed
lines (non-empty, with a comma, non-empty text before and after the first comma; code is
the text before the first comma, name the text after it) and nothing for any other line;
the three-line file with `BADLINE` in the middle yields the two well-formed entries. -/
theorem load_training_skips_malformed :
    (∀ text : Str, LoadTrainingMaps (some text) = (getlines text).filterMap specEntryOfLine) ∧
    LoadTrainingMaps (some "TM_Aerial,Aerial Training\nBADLINE\nTM_Wall,Wall Shots".toList)
      = [⟨"TM_Aerial".toList, "Aerial Training".toList⟩,
         ⟨"TM_Wall".toList, "Wall Shots".toList⟩] := by
  refine ⟨fun text => ?_, by decide⟩
  simp [LoadTrainingMaps, foldl_loadTrainingLine]

/-- C5 (as amended): when the code buffer or the name buffer is empty (length zero, no
trimming being applied), the add-training-map operation leaves the list and the list file
unchanged. -/
theorem add_training_map_rejects_empty (opened : Bool) (code name : Str) (st : TrainingStore)
    (h : code = [] ∨ name = []) : AddTrainingMap opened code name st = st := by
  rcases h with h | h <;> simp [AddTrainingMap, h]

/-- Witness for `add_training_map_rejects_empty`: an empty code with a non-empty name. -/
theorem add_training_map_rejects_empty_witness :
    (([] : Str) = [] ∨ "Wall Shots".toList = []) ∧
    AddTrainingMap true [] "Wall Shots".toList ⟨[⟨"TM".toList, "A".toList⟩], some "TM,A\n".toList⟩
      = ⟨[⟨"TM".toList, "A".toList⟩], some "TM,A\n".toList⟩ :=
  ⟨Or.inl rfl, add_training_map_rejects_empty true [] _ _ (Or.inl rfl)⟩

/-- C5 fails as stated: a code consisting of one blank is empty after trimming, yet the
entry is appended and the list file is rewritten. -/
theorem add_training_map_counterexample :
    trim " ".toList = [] ∧
    (AddTrainingMap true " ".toList "x".toList ⟨[], none⟩).RLTraining = [⟨" ".toList, "x".toList⟩] ∧
    (AddTrainingMap true " ".toList "x".toList ⟨[], none⟩).trainingFile = some " ,x\n".toList ∧
    AddTrainingMap true " ".toList "x".toList ⟨[], none⟩ ≠ ⟨[], none⟩ := by
  decide

theorem swapAt_length (v : List Nat) (i j : Nat) : (swapAt v i j).length = v.length := by
  simp [swapAt]

theorem swapAt_perm (v : List Nat) (i j : Nat) (hi : i < v.length) (hj : j < v.length) :
    (swapAt v i j).Perm v := by
  rw [List.perm_iff_count]
  intro b
  have hi' : i < (v.set i (v.getD j 0)).length := by simpa using hi
  have hj' : j < (v.set i (v.getD j 0)).length := by simpa using hj
  have hx : v.getD i 0 = v[i] := by simp [List.getD_eq_getElem?_getD, hi]
  have hy : v.getD j 0 = v[j] := by simp [List.getD_eq_getElem?_getD, hj]
  have hmid : (v.set i (v.getD j 0))[j] = v[j] := by
    rw [List.getElem_set]
    split
    · exact hy
    · rfl
  have hcount : (if v[i] == b then 1 else 0) ≤ v.count b := by
    split
    · rename_i h
      have hb : v[i] = b := by simpa using h
      have : b ∈ v := hb ▸ List.getElem_mem hi
      exact List.count_pos_iff.2 this
    · exact Nat.zero_le _
  unfold swapAt
  simp only []
  rw [List.count_set _ _ _ _ hj', List.count_set _ _ _ _ hi, hmid, hx, hy]
  omega

theorem fisherYates_perm (draw : Nat → Nat) (n : Nat) (bag : List Nat) (h : n ≤ bag.length) :
    (fisherYates draw n bag).Perm bag := by
  induction n generalizing bag with
  | zero => simp [fisherYates]
  | succ n ih =>
    unfold fisherYates
    split
    · have hj : draw (n + 1) % (n + 1) < bag.length :=
        Nat.lt_of_lt_of_le (Nat.mod_lt _ (Nat.succ_pos n)) h
      have hs := swapAt_perm bag n (draw (n + 1) % (n + 1)) (by omega) hj
      exact (ih _ (by rw [swapAt_length]; omega)).trans hs
    · exact List.Perm.refl _

theorem build_perm (RLTraining : List TrainingEntry) (draw : Nat → Nat) :
    (BuildTrainingShuffleBag RLTraining draw).trainingBag.Perm (List.range RLTraining.length) ∧
    (BuildTrainingShuffleBag RLTraining draw).trainingBagPos = 0 := by
  unfold BuildTrainingShuffleBag
  cases RLTraining with
  | nil => simp
  | cons e l =>
    simp only [List.isEmpty_cons, Bool.false_eq_true, if_false, and_true]
    exact fisherYates_perm draw _ _ (by simp)

theorem build_length (RLTraining : List TrainingEntry) (draw : Nat → Nat) :
    (BuildTrainingShuffleBag RLTraining draw).trainingBag.length = RLTraining.length := by
  have := (build_perm RLTraining draw).1.length_eq
  simpa using this

/-- Calls made while the bag is not exhausted hand out the rest of the bag. -/
theorem calls_within_bag (RLTraining : List TrainingEntry) (hne : RLTraining ≠ [])
    (draws : List (Nat → Nat)) (bag : List Nat) (pos : Nat)
    (hlen : pos + draws.length = bag.length) :
    NextTrainingCalls RLTraining draws ⟨bag, pos⟩ = (bag.drop pos, ⟨bag, bag.length⟩) := by
  induction draws generalizing pos with
  | nil =>
    have : pos = bag.length := by simpa using hlen
    simp [NextTrainingCalls, this]
  | cons d ds ih =>
    have hpos : pos < bag.length := by simp at hlen; omega
    have hbag : bag ≠ [] := by intro e; simp [e] at hpos
    have hstep : NextTrainingIndex RLTraining d ⟨bag, pos⟩ = (bag[pos], ⟨bag, pos + 1⟩) := by
      simp [NextTrainingIndex, hne, hpos, hbag, Nat.not_le.2 hpos, List.getD_eq_getElem?_getD]
    simp only [NextTrainingCalls, hstep]
    rw [ih (pos + 1) (by simp at hlen ⊢; omega), List.drop_eq_getElem_cons hpos]

/-- A full pass started on an exhausted bag returns the freshly built bag. -/
theorem calls_full_pass (RLTraining : List TrainingEntry) (hne : RLTraining ≠ [])
    (d : Nat → Nat) (ds : List (Nat → Nat)) (s : ShuffleBag)
    (hex : s.trainingBag.length ≤ s.trainingBagPos)
    (hlen : (d :: ds).length = RLTraining.length) :
    NextTrainingCalls RLTraining (d :: ds) s
      = ((BuildTrainingShuffleBag RLTraining d).trainingBag,
         ⟨(BuildTrainingShuffleBag RLTraining d).trainingBag, RLTraining.length⟩) := by
  have hbl := build_length RLTraining d
  have hb0 := (build_perm RLTraining d).2
  have hpos : 0 < RLTraining.length := List.length_pos.2 hne
  generalize hB : BuildTrainingShuffleBag RLTraining d = B at hbl hb0
  obtain ⟨bag, p⟩ := B
  simp only at hbl hb0
  subst hb0
  have hbag : bag ≠ [] := by intro e; simp [e] at hbl; omega
  have hstep : NextTrainingIndex RLTraining d s = (bag.getD 0 0, ⟨bag, 1⟩) := by
    simp [NextTrainingIndex, hne, hex, hB, hbag]
  simp only [NextTrainingCalls, hstep]
  rw [calls_within_bag RLTraining hne ds bag 1 (by simp at hlen; omega)]
  cases bag with
  | nil => exact absurd rfl hbag
  | cons x xs =>
    simp only [List.getD_cons_zero, List.drop_one, List.tail_cons, hbl]

theorem calls_append (RLTraining : List TrainingEntry) (a b : List (Nat → Nat)) (s : ShuffleBag) :
    NextTrainingCalls RLTraining (a ++ b) s
      = ((NextTrainingCalls RLTraining a s).1
            ++ (NextTrainingCalls RLTraining b (NextTrainingCalls RLTraining a s).2).1,
         (NextTrainingCalls RLTraining b (NextTrainingCalls RLTraining a s).2).2) := by
  induction a generalizing s with
  | nil => simp [NextTrainingCalls]
  | cons d ds ih => simp [NextTrainingCalls, ih]

/-- Every block of `length` calls started on an exhausted bag is a permutation. -/
theorem calls_block_perm (RLTraining : List TrainingEntry) (hne : RLTraining ≠ []) (k : Nat)
    (draws : List (Nat → Nat)) (s : ShuffleBag)
    (hex : s.trainingBag.length ≤ s.trainingBagPos)
    (h : (k + 1) * RLTraining.length ≤ draws.length) :
    (((NextTrainingCalls RLTraining draws s).1.drop (k * RLTraining.length)).take
      RLTraining.length).Perm (List.range RLTraining.length) := by
  have hpos : 0 < RLTraining.length := List.length_pos.2 hne
  induction k generalizing draws s with
  | zero =>
    have hsplit : draws = draws.take RLTraining.length ++ draws.drop RLTraining.length :=
      (List.take_append_drop _ _).symm
    have htl : (draws.take RLTraining.length).length = RLTraining.length := by
      simp at h ⊢; omega
    cases hd : draws.take RLTraining.length with
    | nil => rw [hd] at htl; simp at htl; omega
    | cons d ds =>
      rw [hd] at htl hsplit
      rw [hsplit, calls_append, calls_full_pass RLTraining hne d ds s hex htl]
      simp only [Nat.zero_mul, List.drop_zero]
      rw [List.take_left' (build_length RLTraining d)]
      exact (build_perm RLTraining d).1
  | succ k ih =>
    have hge : RLTraining.length ≤ draws.length := by
      have : RLTraining.length ≤ (k + 1 + 1) * RLTraining.length := by
        calc RLTraining.length = 1 * RLTraining.length := (Nat.one_mul _).symm
          _ ≤ (k + 1 + 1) * RLTraining.length := Nat.mul_le_mul_right _ (by omega)
      omega
    have hsplit : draws = draws.take RLTraining.length ++ draws.drop RLTraining.length :=
      (List.take_append_drop _ _).symm
    have htl : (draws.take RLTraining.length).length = RLTraining.length := by
      simp; omega
    cases hd : draws.take RLTraining.length with
    | nil => rw [hd] at htl; simp at htl; omega
    | cons d ds =>
      rw [hd] at htl hsplit
      have hrest : (k + 1) * RLTraining.length ≤ (draws.drop RLTraining.length).length := by
        have e : (k + 1 + 1) * RLTraining.length
            = (k + 1) * RLTraining.length + RLTraining.length := by ring
        simp only [List.length_drop]
        omega
      rw [hsplit, calls_append, calls_full_pass RLTraining hne d ds s hex htl]
      simp only []
      have e : (k + 1) * RLTraining.length
          = (BuildTrainingShuffleBag RLTraining d).trainingBag.length + k * RLTraining.length := by
        rw [build_length]; ring
      rw [e, List.drop_append]
      exact ih (draws.drop RLTraining.length) _ (by simp [build_length]) hrest

/-- C2: on a non-empty, unmodified training list of length `n`, starting from the empty bag
with cursor 0 and whatever the random draws are, every block of `n` consecutive calls of
`NextTrainingIndex` (calls `k*n+1 .. k*n+n`, the first block being `k = 0`) returns each
index of `0..n-1` exactly once. -/
theorem shuffle_bag_full_coverage (RLTraining : List TrainingEntry) (hne : RLTraining ≠ [])
    (draws : List (Nat → Nat)) (k : Nat) (h : (k + 1) * RLTraining.length ≤ draws.length) :
    (((NextTrainingCalls RLTraining draws ⟨[], 0⟩).1.drop (k * RLTraining.length)).take
      RLTraining.length).Perm (List.range RLTraining.length) :=
  calls_block_perm RLTraining hne k draws ⟨[], 0⟩ (Nat.le_refl _) h

/-- Witness for `shuffle_bag_full_coverage`: the second block of three calls on a list of
three entries. -/
theorem shuffle_bag_full_coverage_witness :
    ([⟨['a'], ['A']⟩, ⟨['b'], ['B']⟩, ⟨['c'], ['C']⟩] : List TrainingEntry) ≠ [] ∧
    (1 + 1) * ([⟨['a'], ['A']⟩, ⟨['b'], ['B']⟩, ⟨['c'], ['C']⟩] : List TrainingEntry).length
      ≤ (List.replicate 7 (fun n : Nat => n / 2)).length ∧
    (((NextTrainingCalls [⟨['a'], ['A']⟩, ⟨['b'], ['B']⟩, ⟨['c'], ['C']⟩]
        (List.replicate 7 (fun n : Nat => n / 2)) ⟨[], 0⟩).1.drop
          (1 * ([⟨['a'], ['A']⟩, ⟨['b'], ['B']⟩, ⟨['c'], ['C']⟩] : List TrainingEntry).length)).take
      ([⟨['a'], ['A']⟩, ⟨['b'], ['B']⟩, ⟨['c'], ['C']⟩] : List TrainingEntry).length).Perm
      (List.range ([⟨['a'], ['A']⟩, ⟨['b'], ['B']⟩, ⟨['c'], ['C']⟩] : List TrainingEntry).length) :=
  ⟨by decide, by decide,
    shuffle_bag_full_coverage [⟨['a'], ['A']⟩, ⟨['b'], ['B']⟩, ⟨['c'], ['C']⟩] (by decide)
      (List.replicate 7 (fun n : Nat => n / 2)) 1 (by decide)⟩

/-- C3 (as amended): on a non-empty training list `NextTrainingIndex` rebuilds the bag only
when the cursor has reached the end of the bag: then the new bag is a permutation of
`0..length-1`, the index returned is its first element and the cursor stands at 1.  While
the bag is not exhausted, also when the list length differs from the bag length, the call
returns the stored index under the cursor and advances the cursor, leaving the bag as it
was. -/
theorem next_training_index_rebuild (RLTraining : List TrainingEntry) (hne : RLTraining ≠ [])
    (draw : Nat → Nat) (s : ShuffleBag) :
    (s.trainingBag.length ≤ s.trainingBagPos →
      (NextTrainingIndex RLTraining draw s).2.trainingBag.Perm (List.range RLTraining.length) ∧
      (NextTrainingIndex RLTraining draw s).2.trainingBagPos = 1 ∧
      (NextTrainingIndex RLTraining draw s).1
        = (NextTrainingIndex RLTraining draw s).2.trainingBag.getD 0 0) ∧
    (s.trainingBagPos < s.trainingBag.length →
      NextTrainingIndex RLTraining draw s
        = (s.trainingBag.getD s.trainingBagPos 0,
           { trainingBag := s.trainingBag, trainingBagPos := s.trainingBagPos + 1 })) := by
  constructor
  · intro hex
    have hbl := build_length RLTraining draw
    have hbp := build_perm RLTraining draw
    have hpos : 0 < RLTraining.length := List.length_pos.2 hne
    have hbag : (BuildTrainingShuffleBag RLTraining draw).trainingBag ≠ [] := by
      intro e; rw [e] at hbl; simp at hbl; omega
    simp [NextTrainingIndex, hne, hex, hbag, hbp.1, hbp.2]
  · intro hlt
    have hbag : s.trainingBag ≠ [] := by intro e; simp [e] at hlt
    simp [NextTrainingIndex, hne, hbag, Nat.not_le.2 hlt]

/-- Witness for `next_training_index_rebuild`: a list of four entries with a bag built for
three. -/
theorem next_training_index_rebuild_witness :
    ([⟨['a'], ['A']⟩, ⟨['b'], ['B']⟩, ⟨['c'], ['C']⟩, ⟨['d'], ['D']⟩] : List TrainingEntry) ≠ [] ∧
    NextTrainingIndex [⟨['a'], ['A']⟩, ⟨['b'], ['B']⟩, ⟨['c'], ['C']⟩, ⟨['d'], ['D']⟩]
        (fun _ => 0) ⟨[2, 0, 1], 1⟩ = (0, ⟨[2, 0, 1], 2⟩) :=
  ⟨by decide,
    (next_training_index_rebuild [⟨['a'], ['A']⟩, ⟨['b'], ['B']⟩, ⟨['c'], ['C']⟩, ⟨['d'], ['D']⟩]
      (by decide) (fun _ => 0) ⟨[2, 0, 1], 1⟩).2 (by decide)⟩

/-- C3 fails as stated: the bag `[2, 0, 1]` with cursor 1 was built for three entries; after
a fourth entry is added the next call does not rebuild: it returns the stored index 0, the
cursor moves to 2 and the bag (still of length 3) is no permutation of `0..3`. -/
theorem next_training_index_rebuild_counterexample :
    ([⟨['a'], ['A']⟩, ⟨['b'], ['B']⟩, ⟨['c'], ['C']⟩, ⟨['d'], ['D']⟩] : List TrainingEntry).length
      ≠ ([2, 0, 1] : List Nat).length ∧
    NextTrainingIndex [⟨['a'], ['A']⟩, ⟨['b'], ['B']⟩, ⟨['c'], ['C']⟩, ⟨['d'], ['D']⟩]
        (fun _ => 0) ⟨[2, 0, 1], 1⟩ = (0, ⟨[2, 0, 1], 2⟩) ∧
    ¬ ([2, 0, 1] : List Nat).Perm (List.range 4) := by
  refine ⟨by decide, by decide, fun h => ?_⟩
  have := h.length_eq
  simp at this

theorem digitChar_spec (d : Nat) (h : d < 10) :
    (Nat.digitChar d).isDigit = true ∧ (Nat.digitChar d).toNat - '0'.toNat = d := by
  interval_cases d <;> exact ⟨by decide, by decide⟩

theorem digitsValue_append (xs : Str) (c : Char) :
    digitsValue (xs ++ [c]) = 10 * digitsValue xs + (c.toNat - '0'.toNat) := by
  simp [digitsValue, List.foldl_append]

theorem toDigitsCore_spec (fuel n : Nat) (ds : Str) (h : n < fuel) :
    ∃ xs : Str, Nat.toDigitsCore 10 fuel n ds = xs ++ ds ∧ xs ≠ [] ∧
      (∀ c ∈ xs, c.isDigit = true) ∧ digitsValue xs = n := by
  induction fuel generalizing n ds with
  | zero => omega
  | succ fuel ih =>
    obtain ⟨hd1, hd2⟩ := digitChar_spec (n % 10) (Nat.mod_lt _ (by decide))
    by_cases hq : n / 10 = 0
    · refine ⟨[Nat.digitChar (n % 10)], ?_, by simp, ?_, ?_⟩
      · simp [Nat.toDigitsCore, hq]
      · intro c hc
        simp at hc
        rw [hc]; exact hd1
      · have : digitsValue [Nat.digitChar (n % 10)] = (Nat.digitChar (n % 10)).toNat - '0'.toNat := by
          simp [digitsValue]
        rw [this, hd2]
        omega
    · obtain ⟨xs, h1, h2, h3, h4⟩ := ih (n / 10) (Nat.digitChar (n % 10) :: ds) (by omega)
      refine ⟨xs ++ [Nat.digitChar (n % 10)], ?_, by simp, ?_, ?_⟩
      · simp [Nat.toDigitsCore, hq, h1]
      · intro c hc
        rcases List.mem_append.1 hc with hc | hc
        · exact h3 c hc
        · simp at hc
          rw [hc]; exact hd1
      · rw [digitsValue_append, h4, hd2]
        omega

theorem toDigits_spec (n : Nat) :
    Nat.toDigits 10 n ≠ [] ∧ (∀ c ∈ Nat.toDigits 10 n, c.isDigit = true) ∧
      digitsValue (Nat.toDigits 10 n) = n := by
  obtain ⟨xs, h1, h2, h3, h4⟩ := toDigitsCore_spec (n + 1) n [] (Nat.lt_succ_self n)
  have : Nat.toDigits 10 n = xs := by simpa [Nat.toDigits] using h1
  rw [this]
  exact ⟨h2, h3, h4⟩

theorem isDigit_not_space (c : Char) (h : c.isDigit = true) : isSpace c = false := by
  cases hs : isSpace c with
  | false => rfl
  | true =>
    simp only [isSpace, Bool.or_eq_true, decide_eq_true_eq] at hs
    rcases hs with ((((hs | hs) | hs) | hs) | hs) | hs <;>
      (rw [hs] at h; exact absurd h (by decide))

theorem isDigit_not_sign (c : Char) (h : c.isDigit = true) : c ≠ '-' ∧ c ≠ '+' := by
  constructor <;> (intro e; rw [e] at h; exact absurd h (by decide))

theorem span_digits (xs rest : Str) (hx : ∀ c ∈ xs, c.isDigit = true)
    (hr : ∀ c, rest.head? = some c → c.isDigit = false) :
    (xs ++ rest).takeWhile Char.isDigit = xs ∧ (xs ++ rest).dropWhile Char.isDigit = rest := by
  induction xs with
  | nil =>
    cases rest with
    | nil => simp
    | cons c r =>
      have := hr c rfl
      simp [this]
  | cons x xs ih =>
    have hx0 := hx x (by simp)
    have := ih (fun c hc => hx c (by simp [hc]))
    simp [hx0, this.1, this.2]

theorem dropWhile_space (ws s : Str) (hw : ∀ c ∈ ws, isSpace c = true)
    (hs : ∀ c, s.head? = some c → isSpace c = false) :
    (ws ++ s).dropWhile isSpace = s := by
  induction ws with
  | nil =>
    cases s with
    | nil => simp
    | cons c r =>
      have := hs c rfl
      simp [this]
  | cons x xs ih =>
    have hx0 := hw x (by simp)
    have := ih (fun c hc => hw c (by simp [hc]))
    simp [hx0, this]

/-- Extraction reads back a printed `int`, whatever whitespace precedes it, as long as the
text that follows does not go on with a digit. -/
theorem extractInt_printInt (ws rest : Str) (v cur : Int)
    (hw : ∀ c ∈ ws, isSpace c = true)
    (hv : INT_MIN ≤ v ∧ v ≤ INT_MAX)
    (hr : ∀ c, rest.head? = some c → c.isDigit = false) :
    extractInt { buf := ws ++ (printInt v ++ rest), fail := false } cur
      = ({ buf := rest, fail := false }, v) := by
  by_cases hneg : v < 0
  · obtain ⟨h1, h2, h3⟩ := toDigits_spec v.natAbs
    obtain ⟨hs1, hs2⟩ := span_digits _ rest h2 hr
    have hp : printInt v = '-' :: Nat.toDigits 10 v.natAbs := by simp [printInt, hneg]
    have hd : (ws ++ (printInt v ++ rest)).dropWhile isSpace
        = '-' :: (Nat.toDigits 10 v.natAbs ++ rest) := by
      rw [hp]
      exact dropWhile_space ws _ hw (by intro c hc; simp at hc; rw [← hc]; decide)
    have hval : -(v.natAbs : Int) = v := by omega
    unfold extractInt
    simp only [Bool.false_eq_true, if_false, hd, true_or, if_true, hs1, hs2, h3]
    simp only [List.isEmpty_eq_true, h1, if_false, decide_True, if_true, hval]
    have a1 : ¬ v > INT_MAX := by omega
    have a2 : ¬ v < INT_MIN := by omega
    simp [a1, a2]
  · obtain ⟨h1, h2, h3⟩ := toDigits_spec v.toNat
    obtain ⟨hs1, hs2⟩ := span_digits _ rest h2 hr
    have hp : printInt v = Nat.toDigits 10 v.toNat := by simp [printInt, hneg]
    obtain ⟨c, r, hcr⟩ := List.exists_cons_of_ne_nil h1
    have hc : c.isDigit = true := h2 c (by simp [hcr])
    have hd : (ws ++ (printInt v ++ rest)).dropWhile isSpace = c :: (r ++ rest) := by
      rw [hp, hcr]
      exact dropWhile_space ws _ hw
        (by intro x hx; simp at hx; rw [← hx]; exact isDigit_not_space c hc)
    have hval : (v.toNat : Int) = v := by omega
    obtain ⟨n1, n2⟩ := isDigit_not_sign c hc
    have hs1' : (c :: (r ++ rest)).takeWhile Char.isDigit = c :: r := by
      rw [hcr] at hs1; exact hs1
    have hs2' : (c :: (r ++ rest)).dropWhile Char.isDigit = rest := by
      rw [hcr] at hs2; exact hs2
    have h3' : digitsValue (c :: r) = v.toNat := by rw [← hcr]; exact h3
    unfold extractInt
    simp only [Bool.false_eq_true, if_false, hd, n1, n2, or_self, hs1', hs2', h3']
    simp only [List.isEmpty_cons, Bool.false_eq_true, if_false, decide_False, hval]
    have a1 : ¬ v > INT_MAX := by omega
    have a2 : ¬ v < INT_MIN := by omega
    simp [a1, a2]

theorem extractInt_first (v cur : Int) (rest : Str) (hv : INT_MIN ≤ v ∧ v ≤ INT_MAX) :
    extractInt { buf := printInt v ++ '\n' :: rest, fail := false } cur
      = ({ buf := '\n' :: rest, fail := false }, v) := by
  have := extractInt_printInt [] ('\n' :: rest) v cur (by simp) hv
    (by intro c hc; simp at hc; rw [← hc]; decide)
  simpa using this

theorem extractInt_next (v cur : Int) (rest : Str) (hv : INT_MIN ≤ v ∧ v ≤ INT_MAX) :
    extractInt { buf := '\n' :: (printInt v ++ '\n' :: rest), fail := false } cur
      = ({ buf := '\n' :: rest, fail := false }, v) := by
  have := extractInt_printInt ['\n'] ('\n' :: rest) v cur
    (by intro c hc; simp at hc; rw [hc]; decide) hv
    (by intro c hc; simp at hc; rw [← hc]; decide)
  simpa using this

/-- C7: for every settings record (its `int` fields holding 32-bit values), `LoadSettings`
applied to the file written by `SaveSettings` restores all nine fields, whatever the
in-memory state before the load; in particular `autoQueue = true` and `mapType = 1`
(Training) survive a save followed by a fresh load. -/
theorem settings_round_trip (s prior : Settings) (file : Option Str) (h : s.inRange) :
    LoadSettings (SaveSettings true s file) prior = s := by
  obtain ⟨h1, h2, h3, h4, h5, h6, h7, h8⟩ := h
  have h0 : INT_MIN ≤ (if s.autoQueue then (1 : Int) else 0) ∧
      (if s.autoQueue then (1 : Int) else 0) ≤ INT_MAX := by
    cases s.autoQueue <;> decide
  have hb : ((if s.autoQueue then (1 : Int) else 0) != 0) = s.autoQueue := by
    cases s.autoQueue <;> decide
  simp only [SaveSettings, if_true, LoadSettings, settingsText, List.append_assoc,
    List.singleton_append, List.cons_append, List.nil_append, extractInt_first _ _ _ h0,
    extractInt_next _ _ _ h1, extractInt_next _ _ _ h2, extractInt_next _ _ _ h3,
    extractInt_next _ _ _ h4, extractInt_next _ _ _ h5, extractInt_next _ _ _ h6,
    extractInt_next _ _ _ h7, extractInt_next _ _ _ h8, hb]

/-- Witness for `settings_round_trip`: auto-queue enabled and map type Training. -/
theorem settings_round_trip_witness :
    Settings.inRange ⟨true, 1, 5, 0, 2, 0, 3, 7, -1⟩ ∧
    LoadSettings (SaveSettings true ⟨true, 1, 5, 0, 2, 0, 3, 7, -1⟩ none)
      ⟨false, 0, 0, 0, 0, 0, 0, 0, 0⟩ = ⟨true, 1, 5, 0, 2, 0, 3, 7, -1⟩ :=
  ⟨by decide, settings_round_trip _ _ none (by decide)⟩

/-- An extraction that finds the stream failed, or no number under the cursor, stores `0`
into a local initialised to `0` and leaves the stream failed. -/
theorem extractInt_unreadable (st : IStream)
    (h : st.fail = true ∨ numericStart st.buf = false) :
    (extractInt st 0).2 = 0 ∧ (extractInt st 0).1.fail = true := by
  unfold extractInt
  by_cases hf : st.fail = true
  · simp [hf]
  · have hn : numericStart st.buf = false := by
      rcases h with h | h
      · exact absurd h hf
      · exact h
    simp only [hf, if_false]
    unfold numericStart at hn
    cases hs : st.buf.dropWhile isSpace with
    | nil => simp
    | cons c r =>
      rw [hs] at hn
      simp only at hn ⊢
      by_cases hsign : c = '-' ∨ c = '+'
      · simp only [hsign, if_true] at hn ⊢
        cases r with
        | nil => simp
        | cons d r' =>
          simp only at hn
          simp [hn]
      · simp only [hsign, if_false] at hn ⊢
        simp [hn]

theorem settingsStream_unreadable (text : Str) (i j : Nat) (hij : i ≤ j)
    (h : (settingsStream text i).fail = true ∨ numericStart (settingsStream text i).buf = false) :
    (settingsStream text j).fail = true ∨ numericStart (settingsStream text j).buf = false := by
  induction j with
  | zero =>
    have : i = 0 := by omega
    subst this
    exact h
  | succ j ih =>
    by_cases hi : i = j + 1
    · subst hi
      exact h
    · have := ih (by omega)
      exact Or.inl (extractInt_unreadable _ this).2

/-- C8 (as amended): when the settings file does not open, `LoadSettings` leaves all nine
fields as they were; when it opens, the result does not depend on the prior state, and
from the first extraction that finds no number under the cursor (end of input or a
non-numeric token) or finds the stream already failed, that field and every later field
is `0` (`false` for `autoQueue`). -/
theorem load_settings_defaults :
    (∀ prior : Settings, LoadSettings none prior = prior) ∧
    (∀ (text : Str) (prior prior' : Settings),
      LoadSettings (some text) prior = LoadSettings (some text) prior') ∧
    (∀ (text : Str) (prior : Settings) (i j : Nat), i ≤ j → j < 9 →
      ((settingsStream text i).fail = true ∨ numericStart (settingsStream text i).buf = false) →
      (LoadSettings (some text) prior).values[j]? = some 0) := by
  refine ⟨fun _ => rfl, fun _ _ _ => rfl, ?_⟩
  intro text prior i j hij hj h
  have key := (extractInt_unreadable _ (settingsStream_unreadable text i j hij h)).1
  interval_cases j
  · have e : (extractInt { buf := text, fail := false } 0).2 = 0 := key
    simp [LoadSettings, Settings.values, e]
  all_goals
    simp only [LoadSettings, Settings.values]
    exact congrArg some key

/-- Witness for `load_settings_defaults`: the file `1 1 x` gives two readable fields; the
third token is not numeric, so the sixth field is `0`. -/
theorem load_settings_defaults_witness :
    numericStart (settingsStream "1 1 x".toList 2).buf = false ∧
    (LoadSettings (some "1 1 x".toList) ⟨false, 2, 3, 4, 5, 6, 7, 8, 9⟩).values[5]? = some 0 :=
  ⟨by decide, load_settings_defaults.2.2 "1 1 x".toList ⟨false, 2, 3, 4, 5, 6, 7, 8, 9⟩ 2 5
    (by decide) (by decide) (by decide)⟩

/-- C8 fails as stated: with the settings file missing and a prior state in which
`autoQueue` is set and `mapType` is 1, `LoadSettings` leaves both as they are instead of
resetting them to `false` and `0`. -/
theorem load_settings_defaults_counterexample :
    (LoadSettings none ⟨true, 1, 0, 0, 0, 0, 0, 0, 0⟩).mapType = 1 ∧
    (LoadSettings none ⟨true, 1, 0, 0, 0, 0, 0, 0, 0⟩).mapType ≠ 0 ∧
    (LoadSettings none ⟨true, 1, 0, 0, 0, 0, 0, 0, 0⟩).autoQueue ≠ false := by
  decide


theorem getlines_no_newline (text : Str) : ∀ l ∈ getlines text, '\n' ∉ l := by
  induction text with
  | nil => simp [getlines]
  | cons c cs ih =>
    unfold getlines
    by_cases hc : c = '\n'
    · simp only [hc, if_true]
      intro l hl
      rcases List.mem_cons.1 hl with h | h
      · simp [h]
      · exact ih l h
    · simp only [hc, if_false]
      cases hg : getlines cs with
      | nil =>
        intro l hl
        have hne : ¬ '\n' = c := fun e => hc e.symm
        simp at hl
        simp [hl, hne]
      | cons l0 ls =>
        rw [hg] at ih
        intro l hl
        rcases List.mem_cons.1 hl with h | h
        · have h0 := ih l0 (by simp)
          have hne : ¬ '\n' = c := fun e => hc e.symm
          simp [h, h0, hne]
        · exact ih l (by simp [h])

theorem find_append_self (ch : Char) (a b : Str) (h : ch ∉ a) :
    find ch (a ++ ch :: b) = some a.length := by
  induction a with
  | nil => simp [find]
  | cons c a ih =>
    have hc : c ≠ ch := fun e => h (by simp [e])
    have ha : ch ∉ a := fun e => h (by simp [e])
    simp [find, hc, ih ha]

theorem parseLine_acc (acc : List (Str × Str)) (line : Str) :
    parseLine acc line = acc ++ parseLine [] line := by
  unfold parseLine
  split
  · simp
  · cases find '=' line <;> simp

theorem foldl_parseLine (acc : List (Str × Str)) (ls : List Str) :
    ls.foldl parseLine acc = acc ++ ls.foldl parseLine [] := by
  induction ls generalizing acc with
  | nil => simp
  | cons l ls ih =>
    rw [List.foldl_cons, ih, List.foldl_cons, ih (parseLine [] l), parseLine_acc acc l]
    simp

theorem parseLine_clean (e : Str × Str) (h : cleanPair e) :
    parseLine [] (e.1 ++ '=' :: e.2) = [e] := by
  obtain ⟨h1, _, h3, _⟩ := h
  have hhead : ((e.1 ++ '=' :: e.2).head? == some '#') = false := by
    cases hk : e.1 with
    | nil => simp
    | cons c r =>
      rw [hk] at h3
      simpa using h3
  unfold parseLine
  rw [find_append_self '=' e.1 e.2 h1]
  simp [hhead, h3]

theorem cfgText_foldl (acc : Str) (l : List (Str × Str)) :
    l.foldl (fun out e => out ++ e.1 ++ ['='] ++ e.2 ++ ['\n']) acc = acc ++ cfgText l := by
  unfold cfgText
  induction l generalizing acc with
  | nil => simp
  | cons e l ih =>
    rw [List.foldl_cons, ih, List.foldl_cons, ih (([] : Str) ++ e.1 ++ ['='] ++ e.2 ++ ['\n'])]
    simp

theorem cfgText_cons (e : Str × Str) (l : List (Str × Str)) :
    cfgText (e :: l) = (e.1 ++ '=' :: e.2) ++ '\n' :: cfgText l := by
  have := cfgText_foldl (([] : Str) ++ e.1 ++ ['='] ++ e.2 ++ ['\n']) l
  simp only [cfgText, List.foldl_cons] at this ⊢
  rw [this]
  simp

/-- Clean entries at the front of the written text are parsed back as they are. -/
theorem parseAll_cfgText_append (entries rest : List (Str × Str))
    (h : ∀ e ∈ entries, cleanPair e) :
    parseAll (some (cfgText (entries ++ rest))) = entries ++ parseAll (some (cfgText rest)) := by
  simp only [parseAll]
  induction entries with
  | nil => simp
  | cons e es ih =>
    have he := h e (by simp)
    have hline : '\n' ∉ e.1 ++ '=' :: e.2 := by
      simp only [List.mem_append, List.mem_cons, not_or]
      exact ⟨he.2.1, by decide, he.2.2.2⟩
    rw [List.cons_append, cfgText_cons, getlines_append_newline _ _ hline, List.foldl_cons,
      foldl_parseLine, parseLine_clean e he, ih (fun x hx => h x (List.mem_cons_of_mem _ hx))]
    simp

/-- Clean entries are parsed back from the text written for them. -/
theorem parseAll_cfgText (entries : List (Str × Str)) (h : ∀ e ∈ entries, cleanPair e) :
    parseAll (some (cfgText entries)) = entries := by
  have := parseAll_cfgText_append entries [] h
  simpa [cfgText, parseAll, getlines] using this

/-- A pair whose key begins with `#` is written as a line that `parseAll` takes for a
comment. -/
theorem parseAll_cfgText_comment (e : Str × Str) (hl : linePair e)
    (hc : e.1.head? = some '#') : parseAll (some (cfgText [e])) = [] := by
  have hline : '\n' ∉ e.1 ++ '=' :: e.2 := by
    simp only [List.mem_append, List.mem_cons, not_or]
    exact ⟨hl.2.1, by decide, hl.2.2⟩
  have hhead : (e.1 ++ '=' :: e.2).head? = some '#' := by
    cases hk : e.1 with
    | nil => rw [hk] at hc; simp at hc
    | cons c r => rw [hk] at hc; simpa using hc
  have ht : cfgText ([] : List (Str × Str)) = [] := rfl
  simp only [parseAll]
  rw [cfgText_cons, ht, getlines_append_newline _ _ hline]
  simp [getlines, parseLine, hhead]

theorem head?_take_some (l : Str) (n : Nat) (c : Char) (h : (l.take n).head? = some c) :
    l.head? = some c := by
  cases l with
  | nil => simp at h
  | cons x xs =>
    cases n with
    | zero => simp at h
    | succ n => simpa using h

theorem parseLine_preserves_clean (acc : List (Str × Str)) (line : Str)
    (hacc : ∀ e ∈ acc, cleanPair e) (hline : '\n' ∉ line) :
    ∀ e ∈ parseLine acc line, cleanPair e := by
  unfold parseLine
  split
  · exact hacc
  · rename_i hcond
    cases hf : find '=' line with
    | none => exact hacc
    | some pos =>
      intro e he
      simp only [List.mem_append, List.mem_singleton] at he
      rcases he with he | he
      · exact hacc e he
      · obtain ⟨h1, _, _⟩ := find_some_split '=' line pos hf
        subst he
        refine ⟨?_, ?_, ?_, ?_⟩
        · show '=' ∉ line.take pos
          rw [h1]
          intro hmem
          have := List.mem_takeWhile_imp hmem
          simp at this
        · exact fun hmem => hline (List.mem_of_mem_take hmem)
        · show (line.take pos).head? ≠ some '#'
          intro hh
          have := head?_take_some line pos '#' hh
          simp [this] at hcond
        · exact fun hmem => hline (List.mem_of_mem_drop hmem)

/-- Every pair that `parseAll` returns can be written and parsed back unchanged. -/
theorem parseAll_clean (file : Option Str) : ∀ e ∈ parseAll file, cleanPair e := by
  cases file with
  | none => simp [parseAll]
  | some text =>
    simp only [parseAll]
    have key : ∀ (ls : List Str) (acc : List (Str × Str)), (∀ e ∈ acc, cleanPair e) →
        (∀ l ∈ ls, '\n' ∉ l) → ∀ e ∈ ls.foldl parseLine acc, cleanPair e := by
      intro ls
      induction ls with
      | nil => intro acc hacc _; simpa using hacc
      | cons l ls ih =>
        intro acc hacc hls
        rw [List.foldl_cons]
        exact ih _ (parseLine_preserves_clean acc l hacc (hls l (by simp)))
          (fun x hx => hls x (List.mem_cons_of_mem _ hx))
    exact key _ [] (by simp) (getlines_no_newline text)


theorem updatedEntries_nil (key val : Str) : updatedEntries key val [] = [(key, val)] := by
  simp [updatedEntries, updateLoop]

theorem updatedEntries_cons_eq (key val v : Str) (es : List (Str × Str)) :
    updatedEntries key val ((key, v) :: es) = (key, val) :: es := by
  simp [updatedEntries, updateLoop]

theorem updatedEntries_cons_ne (key val k v : Str) (es : List (Str × Str)) (h : k ≠ key) :
    updatedEntries key val ((k, v) :: es) = (k, v) :: updatedEntries key val es := by
  simp only [updatedEntries, updateLoop, h, if_false]
  split <;> simp

theorem readLoop_updatedEntries (key val : Str) (es : List (Str × Str)) :
    readLoop key (updatedEntries key val es) = val := by
  induction es with
  | nil => simp [updatedEntries_nil, readLoop]
  | cons e es ih =>
    obtain ⟨k, v⟩ := e
    by_cases hk : k = key
    · subst hk
      simp [updatedEntries_cons_eq, readLoop]
    · simp [updatedEntries_cons_ne _ _ _ _ _ hk, readLoop, hk, ih]

theorem readLoop_updatedEntries_other (key val k' : Str) (es : List (Str × Str))
    (h : k' ≠ key) : readLoop k' (updatedEntries key val es) = readLoop k' es := by
  have h' : key ≠ k' := fun e => h e.symm
  induction es with
  | nil => simp [updatedEntries_nil, readLoop, h']
  | cons e es ih =>
    obtain ⟨k, v⟩ := e
    by_cases hk : k = key
    · subst hk
      simp [updatedEntries_cons_eq, readLoop, h']
    · rw [updatedEntries_cons_ne _ _ _ _ _ hk]
      simp [readLoop, ih]

theorem filter_updatedEntries (key val : Str) (es : List (Str × Str)) :
    (updatedEntries key val es).filter (fun e => e.1 ≠ key)
      = es.filter (fun e => e.1 ≠ key) := by
  simp only [ne_eq, decide_not]
  induction es with
  | nil => simp [updatedEntries_nil]
  | cons e es ih =>
    obtain ⟨k, v⟩ := e
    by_cases hk : k = key
    · subst hk
      simp [updatedEntries_cons_eq]
    · rw [updatedEntries_cons_ne _ _ _ _ _ hk]
      simp [List.filter_cons, hk, ih]

theorem updatedEntries_absent (key val : Str) (es : List (Str × Str))
    (h : key ∉ es.map Prod.fst) : updatedEntries key val es = es ++ [(key, val)] := by
  induction es with
  | nil => simp [updatedEntries_nil]
  | cons e es ih =>
    obtain ⟨k, v⟩ := e
    have hk : k ≠ key := fun e => h (by simp [e])
    have hes : key ∉ es.map Prod.fst := fun e => h (by simp at e ⊢; exact Or.inr e)
    rw [updatedEntries_cons_ne _ _ _ _ _ hk, ih hes]
    simp

theorem updatedEntries_present (key val : Str) (es : List (Str × Str))
    (h : key ∈ es.map Prod.fst) :
    (updatedEntries key val es).map Prod.fst = es.map Prod.fst := by
  induction es with
  | nil => simp at h
  | cons e es ih =>
    obtain ⟨k, v⟩ := e
    by_cases hk : k = key
    · subst hk
      simp [updatedEntries_cons_eq]
    · have hes : key ∈ es.map Prod.fst := by
        simp only [List.map_cons, List.mem_cons] at h
        rcases h with h | h
        · exact absurd h.symm hk
        · exact h
      rw [updatedEntries_cons_ne _ _ _ _ _ hk]
      simp only [List.map_cons, ih hes]

theorem updatedEntries_clean (key val : Str) (es : List (Str × Str))
    (hkv : cleanPair (key, val)) (hes : ∀ e ∈ es, cleanPair e) :
    ∀ e ∈ updatedEntries key val es, cleanPair e := by
  induction es with
  | nil => simpa [updatedEntries_nil] using hkv
  | cons e es ih =>
    obtain ⟨k, v⟩ := e
    have htl : ∀ e ∈ es, cleanPair e := fun x hx => hes x (List.mem_cons_of_mem _ hx)
    by_cases hk : k = key
    · subst hk
      rw [updatedEntries_cons_eq]
      intro x hx
      rcases List.mem_cons.1 hx with hx | hx
      · rw [hx]; exact hkv
      · exact htl x hx
    · rw [updatedEntries_cons_ne _ _ _ _ _ hk]
      intro x hx
      rcases List.mem_cons.1 hx with hx | hx
      · rw [hx]; exact hes _ (by simp)
      · exact ih htl x hx

/-- What a successful `write` leaves in the file, as `parseAll` sees it. -/
theorem parseAll_write (key val : Str) (file : Option Str) (hkv : cleanPair (key, val)) :
    parseAll (write true key val file) = updatedEntries key val (parseAll file) := by
  simp only [write, if_true]
  exact parseAll_cfgText _ (updatedEntries_clean key val _ hkv (parseAll_clean file))

/-- C9 (as amended): for every config file content, every key without `=` and line feed
that does not begin with `#`, and every value without line feed, `read(key)` after a
successful `write(key, val)` returns `val`; when the key was absent the pair is appended
after the existing entries, and when it was present the sequence of keys is unchanged. -/
theorem config_write_then_read (file : Option Str) (key val : Str)
    (hkv : cleanPair (key, val)) :
    read key (write true key val file) = val ∧
    (key ∉ (parseAll file).map Prod.fst →
      parseAll (write true key val file) = parseAll file ++ [(key, val)]) ∧
    (key ∈ (parseAll file).map Prod.fst →
      (parseAll (write true key val file)).map Prod.fst = (parseAll file).map Prod.fst) := by
  rw [ss_cfg.read, parseAll_write key val file hkv]
  exact ⟨readLoop_updatedEntries key val _, updatedEntries_absent key val _,
    updatedEntries_present key val _⟩

/-- Witness for `config_write_then_read`: overwriting `workshop_path` in a file that holds
a comment and two keys. -/
theorem config_write_then_read_witness :
    cleanPair ("workshop_path".toList, "D:\\maps".toList) ∧
    read "workshop_path".toList
      (write true "workshop_path".toList "D:\\maps".toList
        (some "# cfg\nworkshop_path=C:\\old\ncooked_path=E:\\c\n".toList)) = "D:\\maps".toList :=
  ⟨by decide,
    (config_write_then_read (some "# cfg\nworkshop_path=C:\\old\ncooked_path=E:\\c\n".toList)
      "workshop_path".toList "D:\\maps".toList (by decide)).1⟩

/-- C9 fails as stated: on an absent file, after `write("a=b", "v")` the file holds the
line `a=b=v`, which parses as key `a` with value `b=v`, so `read("a=b")` returns the empty
string; after `write("#k", "v")` the line is taken for a comment and `read("#k")` returns
the empty string; after `write("a\nb", "v")` the call `read("a\nb")` returns the empty
string; and after `write("k", "a\nb")` the call `read("k")` returns `a`. -/
theorem config_write_then_read_counterexample :
    (read "a=b".toList (write true "a=b".toList "v".toList none) = [] ∧
      read "a=b".toList (write true "a=b".toList "v".toList none) ≠ "v".toList) ∧
    (read "#k".toList (write true "#k".toList "v".toList none) = [] ∧
      read "#k".toList (write true "#k".toList "v".toList none) ≠ "v".toList) ∧
    (read "a\nb".toList (write true "a\nb".toList "v".toList none) = [] ∧
      read "a\nb".toList (write true "a\nb".toList "v".toList none) ≠ "v".toList) ∧
    (read "k".toList (write true "k".toList "a\nb".toList none) = "a".toList ∧
      read "k".toList (write true "k".toList "a\nb".toList none) ≠ "a\nb".toList) := by
  decide

/-- A write whose key begins with `#` leaves the parsed content of the file as it was. -/
theorem parseAll_write_comment (opened : Bool) (key val : Str) (file : Option Str)
    (hl : linePair (key, val)) (hc : key.head? = some '#') :
    parseAll (write opened key val file) = parseAll file := by
  cases opened with
  | false => simp [write]
  | true =>
    have habs : key ∉ (parseAll file).map Prod.fst := by
      intro hmem
      obtain ⟨e, he, hk⟩ := List.mem_map.1 hmem
      exact (parseAll_clean file e he).2.2.1 (hk ▸ hc)
    simp only [write, if_true]
    rw [updatedEntries_absent key val _ habs,
      parseAll_cfgText_append _ _ (parseAll_clean file), parseAll_cfgText_comment _ hl hc]
    simp

/-- C10 (as amended): for every config file content, every key without `=` and line feed,
every value without line feed and every other key `k'`, `read(k')` returns the same value
after `write(key, val)` as before, and the entries of the other keys are the same, in the
same order, as before. -/
theorem config_write_preserves_others (opened : Bool) (file : Option Str) (key val k' : Str)
    (hl : linePair (key, val)) (hne : k' ≠ key) :
    read k' (write opened key val file) = read k' file ∧
    (parseAll (write opened key val file)).filter (fun e => e.1 ≠ key)
      = (parseAll file).filter (fun e => e.1 ≠ key) := by
  by_cases hc : key.head? = some '#'
  · rw [ss_cfg.read, ss_cfg.read, parseAll_write_comment opened key val file hl hc]
    exact ⟨rfl, rfl⟩
  · have hkv : cleanPair (key, val) := ⟨hl.1, hl.2.1, hc, hl.2.2⟩
    cases opened with
    | false => simp [write]
    | true =>
      rw [ss_cfg.read, ss_cfg.read, parseAll_write key val file hkv]
      exact ⟨readLoop_updatedEntries_other key val k' _ hne, filter_updatedEntries key val _⟩

/-- Witness for `config_write_preserves_others`: `cooked_path` is untouched by a write of
`workshop_path`. -/
theorem config_write_preserves_others_witness :
    linePair ("workshop_path".toList, "D:\\maps".toList) ∧
    "cooked_path".toList ≠ "workshop_path".toList ∧
    read "cooked_path".toList
      (write true "workshop_path".toList "D:\\maps".toList
        (some "cooked_path=E:\\c\nworkshop_path=C:\\old\n".toList)) = "E:\\c".toList :=
  ⟨by decide, by decide,
    (config_write_preserves_others true (some "cooked_path=E:\\c\nworkshop_path=C:\\old\n".toList)
      "workshop_path".toList "D:\\maps".toList "cooked_path".toList (by decide) (by decide)).1.trans
      (by decide)⟩

/-- C10 fails as stated: on an absent file `write("a=b", "v")` changes what `read("a")`
returns from the empty string to `b=v`; `write("k", "1\nb=2")` and `write("x\nb", "2")`
change what `read("b")` returns from the empty string to `2`. -/
theorem config_write_preserves_others_counterexample :
    ("a".toList ≠ "a=b".toList ∧ read "a".toList none = [] ∧
      read "a".toList (write true "a=b".toList "v".toList none) = "b=v".toList) ∧
    ("b".toList ≠ "k".toList ∧ read "b".toList none = [] ∧
      read "b".toList (write true "k".toList "1\nb=2".toList none) = "2".toList) ∧
    ("b".toList ≠ "x\nb".toList ∧
      read "b".toList (write true "x\nb".toList "2".toList none) = "2".toList) := by
  decide

/-- With no scan root present the scan collects nothing, and the clamp against the upper
bound `-1` turns every non-negative index into `-1`. -/
theorem LoadWorkshopMaps_no_root (fs : FileSystem) (prior : Int)
    (h : ∀ r ∈ roots, fs.probe r ≠ Probe.found) :
    LoadWorkshopMaps fs prior = ([], if prior < 0 then 0 else -1) := by
  have key : ∀ (rs : List Path) (acc : List WorkshopEntry),
      (∀ r ∈ rs, fs.probe r ≠ Probe.found) → rs.foldl (scanRoot fs) acc = acc := by
    intro rs
    induction rs with
    | nil => intro acc _; rfl
    | cons r rs ih =>
      intro acc hrs
      have hr : scanRoot fs acc r = acc := by
        simp [scanRoot, hrs r (List.mem_cons_self _ _)]
      rw [List.foldl_cons, hr]
      exact ih acc (fun x hx => hrs x (List.mem_cons_of_mem _ hx))
  have hc : roots.foldl (scanRoot fs) [] = [] := key roots [] h
  simp only [LoadWorkshopMaps, hc, List.insertionSort, List.length_nil, clamp]
  by_cases hp : prior < 0
  · simp [hp]
  · have : (-1 : Int) < prior := by omega
    simp [hp, this]

/-- C6, the code at the failing input: with no scan root present the workshop list is
empty, but a prior selection index of 0 (or 3) becomes `-1`; only a negative prior index
becomes 0. -/
theorem load_workshop_maps_empty_index :
    LoadWorkshopMaps ⟨fun _ => Probe.notFound, fun _ => [], fun _ => none⟩ 0 = ([], -1) ∧
    LoadWorkshopMaps ⟨fun _ => Probe.notFound, fun _ => [], fun _ => none⟩ 3 = ([], -1) ∧
    LoadWorkshopMaps ⟨fun _ => Probe.notFound, fun _ => [], fun _ => none⟩ (-2) = ([], 0) := by
  refine ⟨?_, ?_, ?_⟩ <;>
    (rw [LoadWorkshopMaps_no_root _ _ (by intro r _; simp)]; rfl)

/-! ### Workshop scan: names, selection, order -/

theorem scanEntry_cases (fs : FileSystem) (acc : List WorkshopEntry × Bool) (e : DirEntry) :
    (scanEntry fs acc e).1 = acc.1 ∨
    (acc.2 = false ∧ e.regular = true ∧ extension e.path = ".upk".toList ∧
      (scanEntry fs acc e).1
        = acc.1 ++ [{ filePath := pathString e.path, name := specWorkshopName fs e.path }]) := by
  unfold scanEntry
  by_cases h1 : acc.2 = true
  · simp [h1]
  · by_cases h2 : e.regular = true
    · by_cases h3 : extension e.path = ".upk".toList
      · right
        have h1' : acc.2 = false := by simpa using h1
        refine ⟨h1', h2, h3, ?_⟩
        simp only [h1', h2, h3, Bool.false_eq_true, if_false, Bool.not_true, ne_eq,
          not_true_eq_false, specWorkshopName]
        cases hp : fs.probe (parent_path e.path ++ [stem e.path ++ ".json".toList]) with
        | found =>
          by_cases ht : readJsonTitle
              (fs.text (parent_path e.path ++ [stem e.path ++ ".json".toList])) = []
          · by_cases hpar : filename (parent_path e.path) = [] <;> simp [ht, hpar]
          · simp [ht]
        | notFound =>
          by_cases hpar : filename (parent_path e.path) = [] <;> simp [hpar]
        | error =>
          by_cases hpar : filename (parent_path e.path) = [] <;> simp [hpar]
      · left
        simp only [h1, h2, h3, Bool.false_eq_true, if_false, Bool.not_true, ne_eq,
          not_false_eq_true, if_true]
    · left
      simp only [h1, h2, Bool.false_eq_true, if_false, Bool.not_false, if_true]

/-- What the scan of the entries of one directory walk can have collected. -/
theorem foldl_scanEntry_mem (fs : FileSystem) (es : List DirEntry)
    (acc : List WorkshopEntry × Bool) (w : WorkshopEntry)
    (hw : w ∈ (es.foldl (scanEntry fs) acc).1) :
    w ∈ acc.1 ∨ ∃ e ∈ es, e.regular = true ∧ extension e.path = ".upk".toList ∧
      w = { filePath := pathString e.path, name := specWorkshopName fs e.path } := by
  induction es generalizing acc with
  | nil => exact Or.inl hw
  | cons e es ih =>
    rw [List.foldl_cons] at hw
    rcases ih _ hw with h | ⟨e', he', h⟩
    · rcases scanEntry_cases fs acc e with hc | ⟨_, h2, h3, hc⟩
      · rw [hc] at h
        exact Or.inl h
      · rw [hc] at h
        rcases List.mem_append.1 h with h | h
        · exact Or.inl h
        · exact Or.inr ⟨e, List.mem_cons_self _ _, h2, h3, by simpa using h⟩
    · exact Or.inr ⟨e', List.mem_cons_of_mem _ he', h⟩

theorem foldl_scanRoot_mem (fs : FileSystem) (rs : List Path) (acc : List WorkshopEntry)
    (w : WorkshopEntry) (hw : w ∈ rs.foldl (scanRoot fs) acc) :
    w ∈ acc ∨ ∃ r ∈ rs, ∃ e ∈ fs.walk r, e.regular = true ∧
      extension e.path = ".upk".toList ∧
      w = { filePath := pathString e.path, name := specWorkshopName fs e.path } := by
  induction rs generalizing acc with
  | nil => exact Or.inl hw
  | cons r rs ih =>
    rw [List.foldl_cons] at hw
    rcases ih _ hw with h | ⟨r', hr', h⟩
    · unfold scanRoot at h
      split at h
      · exact Or.inl h
      · rcases foldl_scanEntry_mem fs _ _ w h with h | ⟨e, he, h⟩
        · exact Or.inl h
        · exact Or.inr ⟨r, List.mem_cons_self _ _, e, he, h⟩
    · exact Or.inr ⟨r', List.mem_cons_of_mem _ hr', h⟩

/-- Every entry of the workshop list stems from a regular `.upk` file of a walk and carries
the name the fallback chain gives that file. -/
theorem LoadWorkshopMaps_mem (fs : FileSystem) (idx : Int) (w : WorkshopEntry)
    (hw : w ∈ (LoadWorkshopMaps fs idx).1) :
    ∃ r ∈ roots, ∃ e ∈ fs.walk r, e.regular = true ∧ extension e.path = ".upk".toList ∧
      w = { filePath := pathString e.path, name := specWorkshopName fs e.path } := by
  simp only [LoadWorkshopMaps] at hw
  have hw' := (List.perm_insertionSort nameLe _).mem_iff.1 hw
  rcases foldl_scanRoot_mem fs roots [] w hw' with h | h
  · simp at h
  · exact h
/-- With the error code clear, a regular `.upk` entry is recorded under the name the
fallback chain gives it. -/
theorem scanEntry_append (fs : FileSystem) (acc : List WorkshopEntry × Bool) (e : DirEntry)
    (h1 : acc.2 = false) (h2 : e.regular = true) (h3 : extension e.path = ".upk".toList) :
    (scanEntry fs acc e).1
      = acc.1 ++ [{ filePath := pathString e.path, name := specWorkshopName fs e.path }] := by
  unfold scanEntry
  simp only [h1, h2, h3, Bool.false_eq_true, if_false, Bool.not_true, ne_eq,
    not_true_eq_false, specWorkshopName]
  cases hp : fs.probe (parent_path e.path ++ [stem e.path ++ ".json".toList]) with
  | found =>
    by_cases ht : readJsonTitle
        (fs.text (parent_path e.path ++ [stem e.path ++ ".json".toList])) = []
    · by_cases hpar : filename (parent_path e.path) = [] <;> simp [ht, hpar]
    · simp [ht]
  | notFound =>
    by_cases hpar : filename (parent_path e.path) = [] <;> simp [hpar]
  | error =>
    by_cases hpar : filename (parent_path e.path) = [] <;> simp [hpar]

/-- The error code is set after an entry only when that entry is a regular `.upk` file whose
metadata query failed. -/
theorem scanEntry_flag (fs : FileSystem) (acc : List WorkshopEntry × Bool) (e : DirEntry)
    (h : (scanEntry fs acc e).2 = true) : setsErrorCode fs e := by
  unfold scanEntry at h
  by_cases h1 : acc.2 = true
  · simp [h1] at h
  · by_cases h2 : e.regular = true
    · by_cases h3 : extension e.path = ".upk".toList
      · refine ⟨h2, h3, ?_⟩
        simp only [h1, h2, h3, Bool.false_eq_true, if_false, Bool.not_true, ne_eq,
          not_true_eq_false] at h
        cases hp : fs.probe (parent_path e.path ++ [stem e.path ++ ".json".toList]) with
        | found => rw [hp] at h; simp at h
        | notFound => rw [hp] at h; simp at h
        | error => rfl
      · simp only [h1, h2, h3, Bool.false_eq_true, if_false, Bool.not_true, ne_eq,
          not_false_eq_true, if_true] at h
    · simp only [h1, h2, Bool.false_eq_true, if_false, Bool.not_false, if_true] at h

/-- The scan never removes an entry it has collected. -/
theorem scanEntry_mono (fs : FileSystem) (acc : List WorkshopEntry × Bool) (e : DirEntry)
    (w : WorkshopEntry) (hw : w ∈ acc.1) : w ∈ (scanEntry fs acc e).1 := by
  rcases scanEntry_cases fs acc e with h | ⟨_, _, _, h⟩
  · rw [h]; exact hw
  · rw [h]; exact List.mem_append_left _ hw

theorem foldl_scanEntry_mono (fs : FileSystem) (es : List DirEntry)
    (acc : List WorkshopEntry × Bool) (w : WorkshopEntry) (hw : w ∈ acc.1) :
    w ∈ (es.foldl (scanEntry fs) acc).1 := by
  induction es generalizing acc with
  | nil => exact hw
  | cons e es ih =>
    rw [List.foldl_cons]
    exact ih _ (scanEntry_mono fs acc e w hw)

/-- After a prefix of a walk the error code is clear unless the last entry of the prefix set
it. -/
theorem foldl_scanEntry_flag (fs : FileSystem) (pre : List DirEntry)
    (acc : List WorkshopEntry × Bool) (hacc : acc.2 = false)
    (hlast : ∀ e0, pre.getLast? = some e0 → ¬ setsErrorCode fs e0) :
    (pre.foldl (scanEntry fs) acc).2 = false := by
  rcases List.eq_nil_or_concat pre with h | ⟨l, e0, h⟩
  · subst h; exact hacc
  · subst h
    rw [List.concat_eq_append] at hlast ⊢
    rw [List.foldl_append, List.foldl_cons, List.foldl_nil]
    have hn := hlast e0 (by simp)
    cases hf : (scanEntry fs (List.foldl (scanEntry fs) acc l) e0).2 with
    | false => rfl
    | true => exact absurd (scanEntry_flag fs _ e0 hf) hn

/-- A regular `.upk` entry of a walk is recorded by the scan of that walk, unless the entry
before it left the error code set. -/
theorem foldl_scanEntry_complete (fs : FileSystem) (RLWorkshop : List WorkshopEntry)
    (pre post : List DirEntry) (e : DirEntry)
    (h2 : e.regular = true) (h3 : extension e.path = ".upk".toList)
    (hlast : ∀ e0, pre.getLast? = some e0 → ¬ setsErrorCode fs e0) :
    { filePath := pathString e.path, name := specWorkshopName fs e.path }
      ∈ ((pre ++ e :: post).foldl (scanEntry fs) (RLWorkshop, false)).1 := by
  rw [List.foldl_append, List.foldl_cons]
  apply foldl_scanEntry_mono
  rw [scanEntry_append fs _ e (foldl_scanEntry_flag fs pre _ rfl hlast) h2 h3]
  exact List.mem_append_right _ (List.mem_singleton_self _)

theorem scanRoot_mono (fs : FileSystem) (acc : List WorkshopEntry) (r : Path)
    (w : WorkshopEntry) (hw : w ∈ acc) : w ∈ scanRoot fs acc r := by
  unfold scanRoot
  split
  · exact hw
  · exact foldl_scanEntry_mono fs _ _ w hw

theorem foldl_scanRoot_mono (fs : FileSystem) (rs : List Path) (acc : List WorkshopEntry)
    (w : WorkshopEntry) (hw : w ∈ acc) : w ∈ rs.foldl (scanRoot fs) acc := by
  induction rs generalizing acc with
  | nil => exact hw
  | cons r rs ih =>
    rw [List.foldl_cons]
    exact ih _ (scanRoot_mono fs acc r w hw)

/-- What one root contributes whatever was collected before it stays in the scan of all
roots. -/
theorem foldl_scanRoot_complete (fs : FileSystem) (rs : List Path) (acc : List WorkshopEntry)
    (r : Path) (w : WorkshopEntry) (hr : r ∈ rs) (hw : ∀ acc0, w ∈ scanRoot fs acc0 r) :
    w ∈ rs.foldl (scanRoot fs) acc := by
  induction rs generalizing acc with
  | nil => cases hr
  | cons r0 rs ih =>
    rw [List.foldl_cons]
    rcases List.mem_cons.1 hr with h | h
    · subst h
      exact foldl_scanRoot_mono fs rs _ w (hw acc)
    · exact ih _ h

/-- Every regular `.upk` file of the walk of an existing root gets an entry of the workshop
list carrying the fallback-chain name, unless the entry before it in the walk left the error
code set. -/
theorem LoadWorkshopMaps_complete (fs : FileSystem) (idx : Int) (r : Path)
    (pre post : List DirEntry) (e : DirEntry)
    (hr : r ∈ roots) (hroot : fs.probe r = Probe.found) (hwalk : fs.walk r = pre ++ e :: post)
    (h2 : e.regular = true) (h3 : extension e.path = ".upk".toList)
    (hlast : ∀ e0, pre.getLast? = some e0 → ¬ setsErrorCode fs e0) :
    { filePath := pathString e.path, name := specWorkshopName fs e.path }
      ∈ (LoadWorkshopMaps fs idx).1 := by
  simp only [LoadWorkshopMaps]
  rw [(List.perm_insertionSort nameLe _).mem_iff]
  apply foldl_scanRoot_complete fs roots [] r _ hr
  intro acc0
  unfold scanRoot
  rw [if_neg (by simp [hroot]), hwalk]
  exact foldl_scanEntry_complete fs acc0 pre post e h2 h3 hlast

/-- C11: the name of every content file found by `LoadWorkshopMaps` follows the fallback
chain, in both directions. Every entry of the list belongs to a regular `.upk` file of a walk
and is named by the chain: the title of the same-stem `.json` file of the same directory when
that file exists and the title is non-empty, otherwise the parent folder's name when
non-empty, otherwise the stem. Conversely every regular `.upk` file of the walk of an existing
root has its entry with the chain's name in the list (unless the entry before it in the walk
left the error code set, in which case the loop does not look at the file), and when its
metadata file exists with a non-empty title the list holds the file under exactly that
title. -/
theorem workshop_name_fallback_chain (fs : FileSystem) (idx : Int) :
    (∀ w ∈ (LoadWorkshopMaps fs idx).1,
      ∃ r ∈ roots, ∃ e ∈ fs.walk r, e.regular = true ∧ extension e.path = ".upk".toList ∧
        w.filePath = pathString e.path ∧ w.name = specWorkshopName fs e.path) ∧
    (∀ p : Path, fs.probe (parent_path p ++ [stem p ++ ".json".toList]) = Probe.found →
      readJsonTitle (fs.text (parent_path p ++ [stem p ++ ".json".toList])) ≠ [] →
      specWorkshopName fs p
        = readJsonTitle (fs.text (parent_path p ++ [stem p ++ ".json".toList]))) ∧
    (∀ (r : Path) (pre post : List DirEntry) (e : DirEntry),
      r ∈ roots → fs.probe r = Probe.found → fs.walk r = pre ++ e :: post →
      e.regular = true → extension e.path = ".upk".toList →
      (∀ e0, pre.getLast? = some e0 → ¬ setsErrorCode fs e0) →
      ({ filePath := pathString e.path, name := specWorkshopName fs e.path } : WorkshopEntry)
        ∈ (LoadWorkshopMaps fs idx).1) ∧
    (∀ (r : Path) (pre post : List DirEntry) (e : DirEntry),
      r ∈ roots → fs.probe r = Probe.found → fs.walk r = pre ++ e :: post →
      e.regular = true → extension e.path = ".upk".toList →
      (∀ e0, pre.getLast? = some e0 → ¬ setsErrorCode fs e0) →
      fs.probe (parent_path e.path ++ [stem e.path ++ ".json".toList]) = Probe.found →
      readJsonTitle (fs.text (parent_path e.path ++ [stem e.path ++ ".json".toList])) ≠ [] →
      ({ filePath := pathString e.path,
         name := readJsonTitle
           (fs.text (parent_path e.path ++ [stem e.path ++ ".json".toList])) } : WorkshopEntry)
        ∈ (LoadWorkshopMaps fs idx).1) := by
  have hspec : ∀ p : Path,
      fs.probe (parent_path p ++ [stem p ++ ".json".toList]) = Probe.found →
      readJsonTitle (fs.text (parent_path p ++ [stem p ++ ".json".toList])) ≠ [] →
      specWorkshopName fs p
        = readJsonTitle (fs.text (parent_path p ++ [stem p ++ ".json".toList])) := by
    intro p hp ht
    simp only [specWorkshopName, hp, if_true, ne_eq, ht, not_false_eq_true]
  refine ⟨?_, hspec, ?_, ?_⟩
  · intro w hw
    obtain ⟨r, hr, e, he, h1, h2, h3⟩ := LoadWorkshopMaps_mem fs idx w hw
    exact ⟨r, hr, e, he, h1, h2, by rw [h3], by rw [h3]⟩
  · intro r pre post e hr hroot hwalk h2 h3 hlast
    exact LoadWorkshopMaps_complete fs idx r pre post e hr hroot hwalk h2 h3 hlast
  · intro r pre post e hr hroot hwalk h2 h3 hlast hp ht
    rw [← hspec e.path hp ht]
    exact LoadWorkshopMaps_complete fs idx r pre post e hr hroot hwalk h2 h3 hlast

/-- Witness for `workshop_name_fallback_chain`: in the sample file system the scan lists
`m1/a.upk`, whose metadata file `a.json` holds the title `Zed`, under the name `Zed`, not
`a` and not `m1`. -/
theorem workshop_name_fallback_chain_witness :
    (roots.headD [] ∈ roots ∧
      sampleFileSystem.probe (roots.headD []) = Probe.found ∧
      sampleFileSystem.walk (roots.headD [])
        = [{ path := roots.headD [] ++ ["m1".toList], regular := false }]
          ++ { path := roots.headD [] ++ ["m1".toList, "a.upk".toList], regular := true }
          :: [{ path := roots.headD [] ++ ["m1".toList, "a.json".toList], regular := true },
              { path := roots.headD [] ++ ["b.upk".toList], regular := true },
              { path := roots.headD [] ++ ["C.UPK".toList], regular := true }] ∧
      extension (roots.headD [] ++ ["m1".toList, "a.upk".toList]) = ".upk".toList ∧
      ¬ setsErrorCode sampleFileSystem
          { path := roots.headD [] ++ ["m1".toList], regular := false } ∧
      sampleFileSystem.probe (roots.headD [] ++ ["m1".toList, "a.json".toList])
        = Probe.found ∧
      readJsonTitle (sampleFileSystem.text (roots.headD [] ++ ["m1".toList, "a.json".toList]))
        = "Zed".toList) ∧
    ({ filePath :=
         "C:\\Program Files\\Epic Games\\rocketleague\\TAGame\\CookedPCConsole\\mods\\m1\\a.upk".toList,
       name := "Zed".toList } : WorkshopEntry)
      ∈ (LoadWorkshopMaps sampleFileSystem 0).1 :=
  ⟨⟨by decide, by decide, by decide, by decide, by decide, by decide, by decide⟩,
    (workshop_name_fallback_chain sampleFileSystem 0).2.2.2
      (roots.headD [])
      [{ path := roots.headD [] ++ ["m1".toList], regular := false }]
      [{ path := roots.headD [] ++ ["m1".toList, "a.json".toList], regular := true },
       { path := roots.headD [] ++ ["b.upk".toList], regular := true },
       { path := roots.headD [] ++ ["C.UPK".toList], regular := true }]
      { path := roots.headD [] ++ ["m1".toList, "a.upk".toList], regular := true }
      (by decide) (by decide) (by decide) (by decide) (by decide)
      (fun e0 h => by
        have h0 : e0 = { path := roots.headD [] ++ ["m1".toList], regular := false } := by
          simpa using h.symm
        rw [h0]
        decide)
      (by decide) (by decide)⟩

theorem stem_ne_nil_of_upk (p : Path) (h : extension p = ".upk".toList) : stem p ≠ [] := by
  have hlen : (extension p).length = 4 := by rw [h]; rfl
  have hpos : (extension p).length < (filename p).length := by
    unfold extension at hlen ⊢
    simp only at hlen ⊢
    split at hlen
    · simp at hlen
    · split at hlen
      · simp at hlen
      · simp at hlen
      · rename_i i _
        split
        · rename_i hc; rename_i hn _ _; exact absurd hc hn
        · simp only [List.length_drop] at hlen ⊢
          omega
  unfold stem
  intro hs
  have := congrArg List.length hs
  simp only [List.length_take, List.length_nil] at this
  omega

/-- The fallback chain never yields an empty name for a file with extension `.upk`. -/
theorem specWorkshopName_ne_nil (fs : FileSystem) (p : Path)
    (h : extension p = ".upk".toList) : specWorkshopName fs p ≠ [] := by
  have hs := stem_ne_nil_of_upk p h
  have key : ∀ title : Str,
      (if title ≠ [] then title
        else if filename (parent_path p) ≠ [] then filename (parent_path p) else stem p) ≠ [] := by
    intro title
    by_cases ht : title = []
    · by_cases hpar : filename (parent_path p) = []
      · simpa [ht, hpar] using hs
      · simp [ht, hpar]
    · simp [ht]
  exact key _

/-- C19: every entry produced by `LoadWorkshopMaps` has a non-empty name, whatever the
metadata file contains and whatever the parent folder's name is. -/
theorem workshop_name_never_empty (fs : FileSystem) (idx : Int) (w : WorkshopEntry)
    (hw : w ∈ (LoadWorkshopMaps fs idx).1) : w.name ≠ [] := by
  obtain ⟨r, _, e, _, _, h2, h3⟩ := LoadWorkshopMaps_mem fs idx w hw
  rw [h3]
  exact specWorkshopName_ne_nil fs e.path h2

/-- Witness for `workshop_name_never_empty`: the entry of `b.upk`, named after its
folder. -/
theorem workshop_name_never_empty_witness :
    ({ filePath := "C:\\Program Files\\Epic Games\\rocketleague\\TAGame\\CookedPCConsole\\mods\\b.upk".toList,
       name := "mods".toList } : WorkshopEntry) ∈ (LoadWorkshopMaps sampleFileSystem 0).1 ∧
    "mods".toList ≠ [] :=
  ⟨by decide,
    workshop_name_never_empty sampleFileSystem 0
      { filePath := "C:\\Program Files\\Epic Games\\rocketleague\\TAGame\\CookedPCConsole\\mods\\b.upk".toList,
        name := "mods".toList } (by decide)⟩

/-- C15: on an empty training list `NextTrainingIndex` returns 0 and leaves the bag and the
cursor as they were, whatever they are. -/
theorem next_training_index_empty (draw : Nat → Nat) (s : ShuffleBag) :
    NextTrainingIndex [] draw s = (0, s) := by
  simp [NextTrainingIndex]
theorem strLt_irrefl (a : Str) : strLt a a = false := by
  induction a with
  | nil => rfl
  | cons c cs ih => simp [strLt, ih]

theorem strLt_asymm (a b : Str) (h : strLt a b = true) : strLt b a = false := by
  induction a generalizing b with
  | nil => cases b <;> simp [strLt] at h ⊢
  | cons x xs ih =>
    cases b with
    | nil => simp [strLt] at h
    | cons y ys =>
      simp only [strLt] at h ⊢
      by_cases hxy : x < y
      · have hyx : ¬ y < x := lt_asymm hxy
        simp [hxy, hyx]
      · by_cases hyx : y < x
        · simp [hxy, hyx] at h
        · simp only [hxy, hyx, if_false] at h ⊢
          exact ih ys h

theorem strLt_trichotomy (a b : Str) (h1 : strLt a b = false) (h2 : strLt b a = false) :
    a = b := by
  induction a generalizing b with
  | nil => cases b <;> simp [strLt] at h1 ⊢
  | cons x xs ih =>
    cases b with
    | nil => simp [strLt] at h2
    | cons y ys =>
      simp only [strLt] at h1 h2
      by_cases hxy : x < y
      · simp [hxy] at h1
      · by_cases hyx : y < x
        · simp [hyx] at h2
        · simp only [hxy, hyx, if_false] at h1 h2
          have hxy' : x = y := le_antisymm (not_lt.1 hyx) (not_lt.1 hxy)
          rw [hxy', ih ys h1 h2]

/-- `¬ (b < a)` and `¬ (c < b)` give `¬ (c < a)`. -/
theorem strLt_false_trans (a b c : Str) (h1 : strLt b a = false) (h2 : strLt c b = false) :
    strLt c a = false := by
  induction a generalizing b c with
  | nil => cases c <;> rfl
  | cons x xs ih =>
    cases b with
    | nil => simp [strLt] at h1
    | cons y ys =>
      cases c with
      | nil => simp [strLt] at h2
      | cons z zs =>
        simp only [strLt] at h1 h2 ⊢
        by_cases hyx : y < x
        · simp [hyx] at h1
        · by_cases hzy : z < y
          · simp [hzy] at h2
          · have hxy : x ≤ y := not_lt.1 hyx
            have hyz : y ≤ z := not_lt.1 hzy
            have hzx : ¬ z < x := not_lt.2 (le_trans hxy hyz)
            simp only [hzx, if_false]
            by_cases hxz : x < z
            · simp [hxz]
            · simp only [hxz, if_false]
              have exz : x = z := le_antisymm (not_lt.1 hzx) (not_lt.1 hxz)
              have exy : x = y := le_antisymm hxy (by rw [exz]; exact hyz)
              have hxy' : ¬ x < y := by rw [exy]; exact lt_irrefl _
              have hyz' : ¬ y < z := by rw [← exy, exz]; exact lt_irrefl _
              simp only [hyx, hxy', if_false] at h1
              simp only [hzy, hyz', if_false] at h2
              exact ih ys zs h1 h2

theorem nameLe_total (a b : WorkshopEntry) : nameLe a b ∨ nameLe b a := by
  unfold nameLe
  cases h : strLt b.name a.name with
  | false => exact Or.inl rfl
  | true => exact Or.inr (strLt_asymm _ _ h)

theorem nameLe_trans (a b c : WorkshopEntry) (h1 : nameLe a b) (h2 : nameLe b c) :
    nameLe a c :=
  strLt_false_trans a.name b.name c.name h1 h2

theorem nameLe_iff_strLe (a b : WorkshopEntry) : nameLe a b ↔ strLe a.name b.name := by
  unfold nameLe strLe
  constructor
  · intro h
    cases h' : strLt a.name b.name with
    | true => exact Or.inr rfl
    | false => exact Or.inl (strLt_trichotomy _ _ h' h)
  · rintro (h | h)
    · rw [h]; exact strLt_irrefl _
    · exact strLt_asymm _ _ h

/-- C13: after `LoadWorkshopMaps` every entry's name is lexicographically less than or
equal to the name of every later entry (in particular of the adjacent one), and the list
is a permutation of the entries collected from all roots. -/
theorem workshop_scan_sorted (fs : FileSystem) (idx : Int) :
    (LoadWorkshopMaps fs idx).1.Chain' (fun a b => strLe a.name b.name) ∧
    (LoadWorkshopMaps fs idx).1.Pairwise (fun a b => strLe a.name b.name) ∧
    (LoadWorkshopMaps fs idx).1.Perm (roots.foldl (scanRoot fs) []) := by
  haveI : IsTotal WorkshopEntry nameLe := ⟨nameLe_total⟩
  haveI : IsTrans WorkshopEntry nameLe := ⟨nameLe_trans⟩
  have hs : ((roots.foldl (scanRoot fs) []).insertionSort nameLe).Pairwise
      (fun a b => strLe a.name b.name) :=
    (List.sorted_insertionSort nameLe _).imp (fun {a b} h => (nameLe_iff_strLe a b).1 h)
  exact ⟨List.Pairwise.chain' hs, hs, List.perm_insertionSort nameLe _⟩

/-! ### Path resolver -/

/-- C17 (as amended): with its environment variable not set, each of the base functions
`epicModsDefault`, `steamWorkshopDefault`, `bmDataRoot` and `GetDataRoot` returns the empty
path; the cache-root functions built on the data root with `/` then return the relative
paths `SuiteTraining`, `SuiteWorkshops` and `SuiteTraining\SuiteSpotTrainingMaps.txt`. -/
theorem path_resolver_missing_env (env : Env) (pathExists : Str → Bool) :
    (env "USERPROFILE".toList = none → ss_paths.epicModsDefault env = []) ∧
    (env "PROGRAMFILES(X86)".toList = none → ss_paths.steamWorkshopDefault env pathExists = []) ∧
    (env "APPDATA".toList = none →
      ss_paths.bmDataRoot env = [] ∧ GetDataRoot env = [] ∧
      ss_paths.suiteTrainingDir env = "SuiteTraining".toList ∧
      ss_paths.suiteWorkshopsDir env = "SuiteWorkshops".toList ∧
      GetSuiteTrainingDir env = "SuiteTraining".toList ∧
      GetSuiteWorkshopsDir env = "SuiteWorkshops".toList ∧
      GetTrainingFilePath env = "SuiteTraining\\SuiteSpotTrainingMaps.txt".toList) := by
  refine ⟨fun h => ?_, fun h => ?_, fun h => ?_⟩
  · simp only [ss_paths.epicModsDefault, h]
  · simp only [ss_paths.steamWorkshopDefault, h]
  · have h1 : ss_paths.bmDataRoot env = [] := by simp only [ss_paths.bmDataRoot, h]
    have h2 : GetDataRoot env = [] := by simp only [GetDataRoot, h]
    refine ⟨h1, h2, ?_, ?_, ?_, ?_, ?_⟩
    · rw [ss_paths.suiteTrainingDir, h1]; rfl
    · rw [ss_paths.suiteWorkshopsDir, h1]; rfl
    · rw [GetSuiteTrainingDir, h2]; rfl
    · rw [GetSuiteWorkshopsDir, h2]; rfl
    · rw [GetTrainingFilePath, GetSuiteTrainingDir, h2]; decide

/-- Witness for `path_resolver_missing_env`: the empty environment. -/
theorem path_resolver_missing_env_witness :
    (fun _ => none : Env) "APPDATA".toList = none ∧
    GetDataRoot (fun _ => none) = [] ∧
    GetTrainingFilePath (fun _ => none) = "SuiteTraining\\SuiteSpotTrainingMaps.txt".toList :=
  ⟨rfl, ((path_resolver_missing_env (fun _ => none) (fun _ => false)).2.2 rfl).2.1,
    ((path_resolver_missing_env (fun _ => none) (fun _ => false)).2.2 rfl).2.2.2.2.2.2⟩

/-- C17 fails as stated: in the empty environment the cache-root functions do not return
the empty path. -/
theorem path_resolver_missing_env_counterexample :
    (fun _ => none : Env) "APPDATA".toList = none ∧
    ss_paths.suiteTrainingDir (fun _ => none) ≠ [] ∧
    ss_paths.suiteWorkshopsDir (fun _ => none) ≠ [] ∧
    GetSuiteTrainingDir (fun _ => none) ≠ [] ∧
    GetSuiteWorkshopsDir (fun _ => none) ≠ [] ∧
    GetTrainingFilePath (fun _ => none) ≠ [] := by
  decide

/-! ### Workshop-root detection -/

theorem looksLikeMapFile_iff (name : Str) :
    ss_epic.looksLikeMapFile name = true ↔ specMapFile name := by
  have hl : ∀ s : String, s ∈ [".udk", ".upk", ".pak", ".zip"] →
      s.toList.map Char.toLower = s.toList := by
    intro s hs
    simp only [List.mem_cons, List.mem_singleton, List.not_mem_nil, or_false] at hs
    rcases hs with rfl | rfl | rfl | rfl <;> decide
  unfold ss_epic.looksLikeMapFile specMapFile eqIgnoreCase
  simp only [Bool.or_eq_true, decide_eq_true_eq, List.mem_cons, List.mem_singleton,
    List.not_mem_nil, or_false, exists_eq_or_imp, exists_eq_left,
    hl ".udk" (by simp), hl ".upk" (by simp), hl ".pak" (by simp), hl ".zip" (by simp)]
  tauto

theorem anyMapFile_iff (es : List (Str × FsNode)) :
    ss_epic.anyMapFile es = true ↔ ∃ n, (n, FsNode.file) ∈ es ∧ specMapFile n := by
  induction es with
  | nil => simp [ss_epic.anyMapFile]
  | cons e es ih =>
    obtain ⟨n, k⟩ := e
    unfold ss_epic.anyMapFile
    cases k with
    | file =>
      by_cases hm : ss_epic.looksLikeMapFile n = true
      · simp only [FsNode.isRegular, hm, Bool.and_self, if_true, true_iff]
        exact ⟨n, List.mem_cons_self _ _, (looksLikeMapFile_iff n).1 hm⟩
      · simp only [FsNode.isRegular, hm, Bool.and_false, Bool.false_eq_true, if_false, ih,
          Bool.true_and]
        constructor
        · rintro ⟨m, hmem, hs⟩
          exact ⟨m, List.mem_cons_of_mem _ hmem, hs⟩
        · rintro ⟨m, hmem, hs⟩
          rcases List.mem_cons.1 hmem with h | h
          · have : m = n := (Prod.mk.inj h).1
            exact absurd ((looksLikeMapFile_iff n).2 (this ▸ hs)) hm
          · exact ⟨m, h, hs⟩
    | dir sub =>
      simp only [FsNode.isRegular, Bool.false_and, Bool.false_eq_true, if_false, ih]
      constructor
      · rintro ⟨m, hmem, hs⟩
        exact ⟨m, List.mem_cons_of_mem _ hmem, hs⟩
      · rintro ⟨m, hmem, hs⟩
        rcases List.mem_cons.1 hmem with h | h
        · exact absurd (Prod.mk.inj h).2 (by intro h'; cases h')
        · exact ⟨m, h, hs⟩
    | other =>
      simp only [FsNode.isRegular, Bool.false_and, Bool.false_eq_true, if_false, ih]
      constructor
      · rintro ⟨m, hmem, hs⟩
        exact ⟨m, List.mem_cons_of_mem _ hmem, hs⟩
      · rintro ⟨m, hmem, hs⟩
        rcases List.mem_cons.1 hmem with h | h
        · exact absurd (Prod.mk.inj h).2 (by intro h'; cases h')
        · exact ⟨m, h, hs⟩

theorem anySubdirMapFile_iff (es : List (Str × FsNode)) :
    ss_epic.anySubdirMapFile es = true ↔
      ∃ d sub n, (d, FsNode.dir sub) ∈ es ∧ (n, FsNode.file) ∈ sub ∧ specMapFile n := by
  induction es with
  | nil =>
    simp only [ss_epic.anySubdirMapFile, Bool.false_eq_true, false_iff]
    rintro ⟨d, sub, n, h, _⟩
    cases h
  | cons e es ih =>
    obtain ⟨d0, k⟩ := e
    unfold ss_epic.anySubdirMapFile
    have lift : (∃ d sub n, (d, FsNode.dir sub) ∈ es ∧ (n, FsNode.file) ∈ sub ∧ specMapFile n) →
        ∃ d sub n, (d, FsNode.dir sub) ∈ (d0, k) :: es ∧ (n, FsNode.file) ∈ sub ∧
          specMapFile n := by
      rintro ⟨d, sub, n, h1, h2, h3⟩
      exact ⟨d, sub, n, List.mem_cons_of_mem _ h1, h2, h3⟩
    cases k with
    | dir sub0 =>
      by_cases hs : ss_epic.anyMapFile sub0 = true
      · simp only [hs, if_true, true_iff]
        obtain ⟨n, h2, h3⟩ := (anyMapFile_iff sub0).1 hs
        exact ⟨d0, sub0, n, List.mem_cons_self _ _, h2, h3⟩
      · simp only [hs, Bool.false_eq_true, if_false, ih]
        constructor
        · exact lift
        · rintro ⟨d, sub, n, h1, h2, h3⟩
          rcases List.mem_cons.1 h1 with h | h
          · have e2 : FsNode.dir sub = FsNode.dir sub0 := (Prod.mk.inj h).2
            have e3 : sub = sub0 := by injection e2
            exact absurd ((anyMapFile_iff sub0).2 ⟨n, e3 ▸ h2, h3⟩) hs
          · exact ⟨d, sub, n, h, h2, h3⟩
    | file =>
      simp only [ih]
      constructor
      · exact lift
      · rintro ⟨d, sub, n, h1, h2, h3⟩
        rcases List.mem_cons.1 h1 with h | h
        · exact absurd (Prod.mk.inj h).2 (by intro h'; cases h')
        · exact ⟨d, sub, n, h, h2, h3⟩
    | other =>
      simp only [ih]
      constructor
      · exact lift
      · rintro ⟨d, sub, n, h1, h2, h3⟩
        rcases List.mem_cons.1 h1 with h | h
        · exact absurd (Prod.mk.inj h).2 (by intro h'; cases h')
        · exact ⟨d, sub, n, h, h2, h3⟩

/-- The code's test of a candidate is the specification's notion of a map directory. -/
theorem looksLikeMapDir_iff (t : DirTree) (c : Str) :
    ss_epic.looksLikeMapDir t c = true ↔ specQualifies t c := by
  unfold ss_epic.looksLikeMapDir ss_epic.exists_dir specQualifies
  cases hn : t.node c with
  | none =>
    simp only [Bool.not_false, if_true, Bool.false_eq_true, false_iff]
    rintro ⟨children, h, _⟩
    cases h
  | some k =>
    cases k with
    | file =>
      simp only [Bool.not_false, if_true, Bool.false_eq_true, false_iff]
      rintro ⟨children, h, _⟩
      cases h
    | other =>
      simp only [Bool.not_false, if_true, Bool.false_eq_true, false_iff]
      rintro ⟨children, h, _⟩
      cases h
    | dir children =>
      simp only [Bool.not_true, Bool.false_eq_true, if_false]
      by_cases h1 : ss_epic.anyMapFile children = true
      · simp only [h1, if_true, true_iff]
        exact ⟨children, rfl, Or.inl ((anyMapFile_iff children).1 h1)⟩
      · simp only [h1, Bool.false_eq_true, if_false, anySubdirMapFile_iff]
        constructor
        · intro h
          exact ⟨children, rfl, Or.inr h⟩
        · rintro ⟨ch, hch, h⟩
          have e1 : FsNode.dir children = FsNode.dir ch := Option.some.inj hch
          have e2 : children = ch := by injection e1
          subst e2
          rcases h with h | h
          · exact absurd ((anyMapFile_iff children).2 h) h1
          · exact h
theorem detectLoop_first (t : DirTree) (pre : List Str) (c : Str) (post : List Str)
    (hpre : ∀ x ∈ pre, ¬ specQualifies t x) (hc : specQualifies t c) :
    ss_epic.detectLoop t (pre ++ c :: post) = c := by
  induction pre with
  | nil => simp [ss_epic.detectLoop, (looksLikeMapDir_iff t c).2 hc]
  | cons x xs ih =>
    have hx : ss_epic.looksLikeMapDir t x = false := by
      cases h : ss_epic.looksLikeMapDir t x with
      | false => rfl
      | true => exact absurd ((looksLikeMapDir_iff t x).1 h) (hpre x (List.mem_cons_self _ _))
    simp only [List.cons_append, ss_epic.detectLoop, hx, Bool.false_eq_true, if_false]
    exact ih (fun y hy => hpre y (List.mem_cons_of_mem _ hy))

theorem detectLoop_none (t : DirTree) (cands : List Str)
    (h : ∀ x ∈ cands, ¬ specQualifies t x) : ss_epic.detectLoop t cands = [] := by
  induction cands with
  | nil => rfl
  | cons x xs ih =>
    have hx : ss_epic.looksLikeMapDir t x = false := by
      cases h' : ss_epic.looksLikeMapDir t x with
      | false => rfl
      | true => exact absurd ((looksLikeMapDir_iff t x).1 h') (h x (List.mem_cons_self _ _))
    simp only [ss_epic.detectLoop, hx, Bool.false_eq_true, if_false]
    exact ih (fun y hy => h y (List.mem_cons_of_mem _ hy))

/-- C18: `detectWorkshopRoot` returns the first candidate, in the order of
`candidateFolders`, that is an existing directory holding a regular file with extension
`.udk`/`.upk`/`.pak`/`.zip` (any letter case) directly or in an immediate subdirectory, and
the empty path when no candidate is such a directory; a directory whose only map file
lies two levels deep is not such a directory. -/
theorem detect_workshop_root (env : Env) (t : DirTree) :
    (∀ (pre : List Str) (c : Str) (post : List Str),
      ss_epic.candidateFolders env t = pre ++ c :: post →
      (∀ x ∈ pre, ¬ specQualifies t x) → specQualifies t c →
      ss_epic.detectWorkshopRoot env t = c) ∧
    ((∀ x ∈ ss_epic.candidateFolders env t, ¬ specQualifies t x) →
      ss_epic.detectWorkshopRoot env t = []) ∧
    (∀ (c : Str) (d1 d2 f : Str),
      t.node c = some (FsNode.dir [(d1, FsNode.dir [(d2, FsNode.dir [(f, FsNode.file)])])]) →
      ss_epic.looksLikeMapDir t c = false ∧ ¬ specQualifies t c) := by
  refine ⟨?_, ?_, ?_⟩
  · intro pre c post hcand hpre hc
    rw [ss_epic.detectWorkshopRoot, hcand]
    exact detectLoop_first t pre c post hpre hc
  · intro h
    exact detectLoop_none t _ h
  · intro c d1 d2 f hnode
    have hf : ss_epic.looksLikeMapDir t c = false := by
      simp [ss_epic.looksLikeMapDir, ss_epic.exists_dir, hnode, ss_epic.anyMapFile,
        ss_epic.anySubdirMapFile, FsNode.isRegular]
    refine ⟨hf, fun hq => ?_⟩
    rw [(looksLikeMapDir_iff t c).2 hq] at hf
    cases hf

/-- Witness for `detect_workshop_root`: the first candidate holds a map file only two
levels deep, the second holds `Map.UDK` in a subdirectory and is returned, although the
third holds a map file directly. -/
theorem detect_workshop_root_witness :
    ss_epic.candidateFolders sampleEnv sampleDirTree
      = ["A\\bakkesmod\\bakkesmod\\data\\SuiteWorkshops".toList]
        ++ "A\\bakkesmod\\bakkesmod\\data\\Workshop".toList
        :: ["P\\Steam\\steamapps\\workshop\\content\\252950".toList] ∧
    ss_epic.detectWorkshopRoot sampleEnv sampleDirTree
      = "A\\bakkesmod\\bakkesmod\\data\\Workshop".toList :=
  ⟨by decide,
    (detect_workshop_root sampleEnv sampleDirTree).1
      ["A\\bakkesmod\\bakkesmod\\data\\SuiteWorkshops".toList]
      "A\\bakkesmod\\bakkesmod\\data\\Workshop".toList
      ["P\\Steam\\steamapps\\workshop\\content\\252950".toList] (by decide)
      (by
        intro x hx
        rw [← looksLikeMapDir_iff]
        simp only [List.mem_singleton] at hx
        subst hx
        decide)
      (by rw [← looksLikeMapDir_iff]; decide)⟩

/-- C12, the code at the failing input: the walk of the first root yields the regular files
`m1\a.upk`, `b.upk` and `C.UPK`; `looksLikeMapFile` accepts `C.UPK`, but
`LoadWorkshopMaps` produces entries for the two lower-case files only. -/
theorem workshop_scan_extension_case :
    ss_epic.looksLikeMapFile "C.UPK".toList = true ∧
    ({ path := roots.headD [] ++ ["C.UPK".toList], regular := true } : DirEntry)
      ∈ sampleFileSystem.walk (roots.headD []) ∧
    (LoadWorkshopMaps sampleFileSystem 0).1
      = [{ filePath := "C:\\Program Files\\Epic Games\\rocketleague\\TAGame\\CookedPCConsole\\mods\\m1\\a.upk".toList,
           name := "Zed".toList },
         { filePath := "C:\\Program Files\\Epic Games\\rocketleague\\TAGame\\CookedPCConsole\\mods\\b.upk".toList,
           name := "mods".toList }] := by
  decide

/-! ### Directory mirror -/

theorem mirrorEntry_noop (st : FileTree × List Path) (e : SrcEntry) (h : upToDate st.1 e) :
    mirrorEntry st e = st := by
  unfold mirrorEntry
  cases hk : e.kind with
  | directory => rfl
  | other => rfl
  | regular info =>
    obtain ⟨x, hx, h1, h2⟩ := h info hk
    simp [hx, h1, h2]

theorem mirrorEntry_other (st : FileTree × List Path) (e : SrcEntry) (q : Path)
    (hq : q ≠ e.rel) : (mirrorEntry st e).1 q = st.1 q := by
  unfold mirrorEntry
  cases e.kind with
  | directory => rfl
  | other => rfl
  | regular info =>
    simp only
    split
    · simp [Function.update, hq]
    · rfl

theorem mirrorEntry_upToDate (st : FileTree × List Path) (e : SrcEntry) :
    upToDate (mirrorEntry st e).1 e := by
  intro i hi
  unfold mirrorEntry
  simp only [hi]
  split
  · exact ⟨i, by simp [Function.update], rfl, rfl⟩
  · rename_i hc
    cases hd : st.1 e.rel with
    | none => simp [hd] at hc
    | some d =>
      simp only [hd, ne_eq, Bool.or_eq_true, decide_eq_true_eq, not_or, not_not] at hc
      exact ⟨d, rfl, hc.1.symm, hc.2.symm⟩

theorem foldl_mirrorEntry_other (es : List SrcEntry) (st : FileTree × List Path) (q : Path)
    (hq : q ∉ es.map SrcEntry.rel) : (es.foldl mirrorEntry st).1 q = st.1 q := by
  induction es generalizing st with
  | nil => rfl
  | cons e es ih =>
    simp only [List.map_cons, List.mem_cons, not_or] at hq
    rw [List.foldl_cons, ih _ hq.2, mirrorEntry_other st e q hq.1]

theorem foldl_mirrorEntry_upToDate (es : List SrcEntry) (st : FileTree × List Path)
    (hnd : (es.map SrcEntry.rel).Nodup) :
    ∀ e ∈ es, upToDate (es.foldl mirrorEntry st).1 e := by
  induction es generalizing st with
  | nil => intro e he; cases he
  | cons e0 es ih =>
    simp only [List.map_cons, List.nodup_cons] at hnd
    intro e he
    rw [List.foldl_cons]
    rcases List.mem_cons.1 he with h | h
    · subst h
      intro i hi
      rw [foldl_mirrorEntry_other es _ e.rel hnd.1]
      exact mirrorEntry_upToDate st e i hi
    · exact ih _ hnd.2 e h

theorem foldl_mirrorEntry_noop (es : List SrcEntry) (st : FileTree × List Path)
    (h : ∀ e ∈ es, upToDate st.1 e) : es.foldl mirrorEntry st = st := by
  induction es with
  | nil => rfl
  | cons e es ih =>
    rw [List.foldl_cons, mirrorEntry_noop st e (h e (List.mem_cons_self _ _))]
    exact ih (fun x hx => h x (List.mem_cons_of_mem _ hx))

/-- C16: for a source walk that lists every path once, a second `MirrorDirectory` with the
source unchanged copies no file; and if between the calls exactly one file of the source
was modified so that its last-write time changed, the second call copies that file and no
other. -/
theorem mirror_idempotent (entries : List SrcEntry) (dst : FileTree)
    (hnd : (entries.map SrcEntry.rel).Nodup) :
    (MirrorDirectory (some entries) (MirrorDirectory (some entries) dst).1).2 = [] ∧
    (∀ (pre post : List SrcEntry) (p : Path) (i i' : FileInfo),
      entries = pre ++ { rel := p, kind := EntryKind.regular i } :: post →
      i'.mtime ≠ i.mtime →
      (MirrorDirectory (some (pre ++ { rel := p, kind := EntryKind.regular i' } :: post))
        (MirrorDirectory (some entries) dst).1).2 = [p]) := by
  have hup := foldl_mirrorEntry_upToDate entries (dst, []) hnd
  constructor
  · simp only [MirrorDirectory]
    rw [foldl_mirrorEntry_noop entries ((entries.foldl mirrorEntry (dst, [])).1, []) hup]
  · intro pre post p i i' hes hne
    simp only [MirrorDirectory]
    generalize hd1 : (entries.foldl mirrorEntry (dst, [])).1 = d1 at hup
    have hpre : ∀ e ∈ pre, upToDate d1 e := fun e he => hup e (by rw [hes]; simp [he])
    have hpost : ∀ e ∈ post, upToDate d1 e := fun e he => hup e (by rw [hes]; simp [he])
    obtain ⟨x, hx, hx1, _⟩ := hup { rel := p, kind := EntryKind.regular i }
      (by rw [hes]; simp) i rfl
    simp only at hx
    have hp : ∀ e ∈ post, e.rel ≠ p := by
      intro e he heq
      rw [hes] at hnd
      simp only [List.map_append, List.map_cons] at hnd
      have h2 := (List.nodup_append.1 hnd).2.1
      simp only [List.nodup_cons, List.mem_map, not_exists, not_and] at h2
      exact h2.1 e he heq
    rw [List.foldl_append, foldl_mirrorEntry_noop pre (d1, []) hpre, List.foldl_cons]
    have hstep : mirrorEntry (d1, []) { rel := p, kind := EntryKind.regular i' }
        = (Function.update d1 p (some i'), [p]) := by
      have : i'.mtime ≠ x.mtime := by rw [hx1]; exact hne
      simp [mirrorEntry, hx, this]
    rw [hstep, foldl_mirrorEntry_noop post _ ?_]
    intro e he j hj
    obtain ⟨y, hy, hy1, hy2⟩ := hpost e he j hj
    refine ⟨y, ?_, hy1, hy2⟩
    simp only [Function.update, hp e he, dite_false, hy]

/-- Witness for `mirror_idempotent`: after a first mirror into an empty destination, the
second call with `m/a.upk` rewritten (new content and last-write time) copies `m/a.upk`
only. -/
theorem mirror_idempotent_witness :
    (sampleWalk.map SrcEntry.rel).Nodup ∧
    (MirrorDirectory (some sampleWalk) (fun _ => none)).2
      = [["m".toList, "a.upk".toList], ["b.upk".toList]] ∧
    (MirrorDirectory (some sampleWalk) (MirrorDirectory (some sampleWalk) (fun _ => none)).1).2
      = [] ∧
    (MirrorDirectory
        (some ([{ rel := ["m".toList], kind := EntryKind.directory }]
          ++ { rel := ["m".toList, "a.upk".toList],
               kind := EntryKind.regular { size := 3, mtime := 200, content := "abd".toList } }
          :: [{ rel := ["b.upk".toList],
                kind := EntryKind.regular { size := 2, mtime := 50, content := "xy".toList } }]))
        (MirrorDirectory (some sampleWalk) (fun _ => none)).1).2
      = [["m".toList, "a.upk".toList]] :=
  ⟨by decide, by decide, (mirror_idempotent sampleWalk (fun _ => none) (by decide)).1,
    (mirror_idempotent sampleWalk (fun _ => none) (by decide)).2
      [{ rel := ["m".toList], kind := EntryKind.directory }]
      [{ rel := ["b.upk".toList],
         kind := EntryKind.regular { size := 2, mtime := 50, content := "xy".toList } }]
      ["m".toList, "a.upk".toList]
      { size := 3, mtime := 100, content := "abc".toList }
      { size := 3, mtime := 200, content := "abd".toList } (by decide) (by decide)⟩

/-! ### Match-end dispatch -/

theorem safeExecute_cmd (d : Int) (c : Str) : (safeExecute d c).cmd = c := by
  unfold safeExecute
  split <;> rfl

theorem clamp_range (v hi : Int) (h : 0 ≤ hi) : 0 ≤ clamp v 0 hi ∧ clamp v 0 hi ≤ hi := by
  unfold clamp
  split
  · exact ⟨le_refl _, h⟩
  · split
    · exact ⟨h, le_refl _⟩
    · constructor <;> omega

theorem getElem?_clamp {α : Type} (l : List α) (v : Int) (h : l ≠ []) :
    ∃ x, l[(clamp v 0 ((l.length : Int) - 1)).toNat]? = some x := by
  have hpos : 0 < l.length := List.length_pos.2 h
  obtain ⟨h1, h2⟩ := clamp_range v ((l.length : Int) - 1) (by omega)
  have hlt : (clamp v 0 ((l.length : Int) - 1)).toNat < l.length := by omega
  exact ⟨l[(clamp v 0 ((l.length : Int) - 1)).toNat], List.getElem?_eq_getElem hlt⟩

/-- Shape of what the dispatch hands to the host: nothing, or one load command with the
delay configured for the map type; the settings other than the two selection indices are
left as they were. -/
theorem dispatchLoad_shape (draw : Nat → Nat) (s : Plugin) (r : List HostCall × Plugin)
    (h : dispatchLoad draw s = some r) :
    (r.1 = [] ∨ ∃ cmd, isLoadCommand cmd = true ∧
      r.1 = [safeExecute (loadDelay s.settings) cmd]) ∧
    r.2.settings.autoQueue = s.settings.autoQueue ∧
    r.2.settings.delayQueueSec = s.settings.delayQueueSec := by
  unfold dispatchLoad at h
  by_cases h0 : s.settings.mapType = 0
  · simp only [h0, if_true] at h
    split at h
    · cases h
      exact ⟨Or.inl rfl, rfl, rfl⟩
    · cases hm : s.RLMaps[s.settings.currentIndex.toNat]? with
      | none => simp [hm] at h
      | some m =>
        simp only [hm, Option.some.injEq] at h
        subst h
        refine ⟨Or.inr ⟨"load_freeplay ".toList ++ m.code, rfl, ?_⟩, rfl, rfl⟩
        simp only [loadDelay, h0, if_true]
  · by_cases h1 : s.settings.mapType = 1
    · simp only [h1, if_true] at h
      simp only [show ¬ ((1 : Int) = 0) by decide, if_false] at h
      split at h
      · cases h
        exact ⟨Or.inl rfl, rfl, rfl⟩
      · cases hm : s.RLTraining[(selectTrainingIndex draw s).1.toNat]? with
        | none => simp [hm] at h
        | some t =>
          simp only [hm, Option.some.injEq] at h
          subst h
          refine ⟨Or.inr ⟨"load_training ".toList ++ t.code, rfl, ?_⟩, rfl, rfl⟩
          simp only [loadDelay, h1, show ¬ ((1 : Int) = 0) by decide, if_true, if_false]
    · by_cases h2 : s.settings.mapType = 2
      · simp only [h2, if_true] at h
        simp only [show ¬ ((2 : Int) = 0) by decide, show ¬ ((2 : Int) = 1) by decide,
          if_false] at h
        split at h
        · cases h
          exact ⟨Or.inl rfl, rfl, rfl⟩
        · cases hm : s.RLWorkshop[(clamp s.settings.currentWorkshopIndex 0
              ((s.RLWorkshop.length : Int) - 1)).toNat]? with
          | none => simp [hm] at h
          | some w =>
            simp only [hm, Option.some.injEq] at h
            subst h
            refine ⟨Or.inr ⟨"load_workshop \"".toList ++ w.filePath ++ "\"".toList, rfl, ?_⟩,
              rfl, rfl⟩
            simp only [loadDelay, h2, show ¬ ((2 : Int) = 0) by decide,
              show ¬ ((2 : Int) = 1) by decide, if_false]
      · simp only [h0, h1, h2, if_false] at h
        cases h
        exact ⟨Or.inl rfl, rfl, rfl⟩
theorem dispatchLoad_none_iff (draw : Nat → Nat) (s : Plugin) :
    dispatchLoad draw s = none ↔
      (s.settings.mapType = 1 ∧ s.RLTraining ≠ [] ∧ s.trainingShuffleEnabled = true ∧
        s.RLTraining.length ≤ (NextTrainingIndex s.RLTraining draw s.bag).1) := by
  unfold dispatchLoad
  by_cases h0 : s.settings.mapType = 0
  · have h01 : ¬ s.settings.mapType = 1 := by rw [h0]; decide
    simp only [h0, if_true, h01, false_and, iff_false]
    split
    · simp
    · rename_i hr
      have hlt : s.settings.currentIndex.toNat < s.RLMaps.length := by omega
      rw [List.getElem?_eq_getElem hlt]
      simp
  · by_cases h1 : s.settings.mapType = 1
    · simp only [h1, show ¬ ((1 : Int) = 0) by decide, if_true, if_false, true_and]
      by_cases hne : s.RLTraining = []
      · simp [hne]
      · have hemp : s.RLTraining.isEmpty = false := by
          cases hl : s.RLTraining with
          | nil => exact absurd hl hne
          | cons a l => rfl
        simp only [hemp, Bool.false_eq_true, if_false, ne_eq, hne, not_false_eq_true, true_and]
        by_cases hsh : s.trainingShuffleEnabled = true
        · simp only [selectTrainingIndex, hsh, if_true, Int.toNat_ofNat, true_and]
          cases hm : s.RLTraining[(NextTrainingIndex s.RLTraining draw s.bag).1]? with
          | none => exact ⟨fun _ => List.getElem?_eq_none_iff.1 hm, fun _ => rfl⟩
          | some t =>
            constructor
            · intro h
              cases h
            · intro hle
              rw [List.getElem?_eq_none_iff.2 hle] at hm
              cases hm
        · simp only [selectTrainingIndex, hsh, Bool.false_eq_true, if_false, false_and,
            iff_false]
          obtain ⟨x, hx⟩ := getElem?_clamp s.RLTraining s.settings.currentTrainingIndex hne
          rw [hx]
          simp
    · by_cases h2 : s.settings.mapType = 2
      · simp only [h2, show ¬ ((2 : Int) = 0) by decide, show ¬ ((2 : Int) = 1) by decide,
          if_true, if_false, false_and, iff_false]
        by_cases hne : s.RLWorkshop = []
        · simp [hne]
        · have hemp : s.RLWorkshop.isEmpty = false := by
            cases hl : s.RLWorkshop with
            | nil => exact absurd hl hne
            | cons a l => rfl
          simp only [hemp, Bool.false_eq_true, if_false]
          obtain ⟨x, hx⟩ := getElem?_clamp s.RLWorkshop s.settings.currentWorkshopIndex hne
          rw [hx]
          simp
      · simp [h0, h1, h2]

theorem isQueue_of_isLoad (cmd : Str) (h : isLoadCommand cmd = true) :
    isQueueCommand cmd = false := by
  cases hq : isQueueCommand cmd with
  | false => rfl
  | true =>
    have : cmd = "queue".toList := by simpa [isQueueCommand] using hq
    rw [this] at h
    exact absurd h (by decide)

/-- C20: one call of `GameEndedEvent` hands the host at most one load-map command and at
most one `queue` command, each executed at once when its configured delay is `<= 0` and
scheduled with that delay otherwise, and nothing at all when the plugin is not enabled;
the call has a defined outcome in every state except when auto-shuffle yields a bag index
that is not below the length of the training list. -/
theorem game_ended_bounded (draw : Nat → Nat) (s : Plugin) :
    (GameEndedEvent draw s = none ↔ shuffleIndexOutOfRange draw s) ∧
    (∀ calls s', GameEndedEvent draw s = some (calls, s') →
      (calls.filter (fun c => isLoadCommand c.cmd)).length ≤ 1 ∧
      (calls.filter (fun c => isQueueCommand c.cmd)).length ≤ 1 ∧
      (∀ c ∈ calls,
        (isLoadCommand c.cmd = true ∧ c = safeExecute (loadDelay s.settings) c.cmd) ∨
        (isQueueCommand c.cmd = true ∧ c = safeExecute s.settings.delayQueueSec c.cmd))) ∧
    (s.enabled = false → GameEndedEvent draw s = some ([], s)) ∧
    (∀ (d : Int) (c : Str), (d ≤ 0 → safeExecute d c = HostCall.executeCommand c) ∧
      (0 < d → safeExecute d c = HostCall.setTimeout c d)) := by
  refine ⟨?_, ?_, ?_, ?_⟩
  · unfold GameEndedEvent shuffleIndexOutOfRange
    by_cases he : s.enabled = true
    · simp only [he, Bool.not_true, Bool.false_eq_true, if_false, true_and]
      rw [← dispatchLoad_none_iff]
      cases dispatchLoad draw s <;> simp
    · simp [he]
  · intro calls s' h
    unfold GameEndedEvent at h
    by_cases he : s.enabled = true
    · simp only [he, Bool.not_true, Bool.false_eq_true, if_false] at h
      cases hd : dispatchLoad draw s with
      | none => simp [hd] at h
      | some r =>
        obtain ⟨hshape, haq, hdq⟩ := dispatchLoad_shape draw s r hd
        simp only [hd, Option.some.injEq, Prod.mk.injEq] at h
        obtain ⟨hcalls, _⟩ := h
        subst hcalls
        have hq : isLoadCommand "queue".toList = false := by decide
        have hq' : isQueueCommand "queue".toList = true := by decide
        unfold queueCalls
        rw [haq, hdq]
        generalize "queue".toList = Q at hq hq' ⊢
        rcases hshape with hl | ⟨cmd, hcmd, hl⟩
        · rw [hl]
          by_cases ha : s.settings.autoQueue = true
          · simp [ha, safeExecute_cmd, hq, hq']
          · simp [ha]
        · rw [hl]
          have hcq := isQueue_of_isLoad cmd hcmd
          by_cases ha : s.settings.autoQueue = true
          · simp [ha, safeExecute_cmd, hq, hq', hcmd, hcq]
          · simp [ha, safeExecute_cmd, hcmd, hcq]
    · simp only [he, Bool.not_eq_true] at h
      have he' : s.enabled = false := by simpa using he
      simp only [he', Bool.not_false, if_true, Option.some.injEq, Prod.mk.injEq] at h
      rw [← h.1]
      simp
  · intro he
    simp [GameEndedEvent, he]
  · intro d c
    unfold safeExecute
    constructor
    · intro h; simp [h]
    · intro h
      have : ¬ d ≤ 0 := by omega
      simp [this]
/-- C14: with the plugin enabled and the selected entry present, `GameEndedEvent` hands the
host exactly `load_freeplay <code>` for map type 0 (Freeplay), `load_training <code>` for
map type 1 (Training) and `load_workshop "<filePath>"` for map type 2 (Workshop), with the
code or file path of the selected entry, followed by `queue` when `autoQueue` is set and
by nothing otherwise; the command `queue` is among the calls iff `autoQueue` is set. -/
theorem game_ended_commands (draw : Nat → Nat) (s : Plugin) (he : s.enabled = true) :
    (s.settings.mapType = 0 → ∀ m, 0 ≤ s.settings.currentIndex →
      s.RLMaps[s.settings.currentIndex.toNat]? = some m →
      GameEndedEvent draw s
        = some (safeExecute s.settings.delayFreeplaySec ("load_freeplay ".toList ++ m.code)
            :: queueCalls s.settings, s)) ∧
    (s.settings.mapType = 1 → ∀ t,
      s.RLTraining[(selectTrainingIndex draw s).1.toNat]? = some t →
      GameEndedEvent draw s
        = some (safeExecute s.settings.delayTrainingSec ("load_training ".toList ++ t.code)
            :: queueCalls s.settings,
          { s with
            settings :=
              { s.settings with currentTrainingIndex := (selectTrainingIndex draw s).1 },
            bag := (selectTrainingIndex draw s).2 })) ∧
    (s.settings.mapType = 2 → ∀ w,
      s.RLWorkshop[(clamp s.settings.currentWorkshopIndex 0
        ((s.RLWorkshop.length : Int) - 1)).toNat]? = some w →
      GameEndedEvent draw s
        = some (safeExecute s.settings.delayWorkshopSec
              ("load_workshop \"".toList ++ w.filePath ++ "\"".toList)
            :: queueCalls s.settings,
          { s with
            settings :=
              { s.settings with
                currentWorkshopIndex :=
                  clamp s.settings.currentWorkshopIndex 0 ((s.RLWorkshop.length : Int) - 1) } })) ∧
    (∀ calls s', GameEndedEvent draw s = some (calls, s') →
      ((∃ c ∈ calls, c.cmd = "queue".toList) ↔ s.settings.autoQueue = true)) := by
  refine ⟨?_, ?_, ?_, ?_⟩
  · intro h0 m hnn hm
    have hlt : s.settings.currentIndex.toNat < s.RLMaps.length := by
      by_contra hcon
      rw [List.getElem?_eq_none_iff.2 (not_lt.1 hcon)] at hm
      cases hm
    have hr : ¬ (s.settings.currentIndex < 0 ∨
        s.settings.currentIndex ≥ (s.RLMaps.length : Int)) := by omega
    simp only [GameEndedEvent, he, Bool.not_true, Bool.false_eq_true, if_false, dispatchLoad, h0,
      if_true, hr, hm, List.singleton_append]
  · intro h1 t ht
    have hne : s.RLTraining.isEmpty = false := by
      cases hl : s.RLTraining with
      | nil => rw [hl] at ht; simp at ht
      | cons a l => rfl
    simp only [GameEndedEvent, he, Bool.not_true, Bool.false_eq_true, if_false, dispatchLoad,
      h1, show ¬ ((1 : Int) = 0) by decide, if_true, hne, ht, List.singleton_append]
    rfl
  · intro h2 w hw
    have hne : s.RLWorkshop.isEmpty = false := by
      cases hl : s.RLWorkshop with
      | nil => rw [hl] at hw; simp at hw
      | cons a l => rfl
    simp only [GameEndedEvent, he, Bool.not_true, Bool.false_eq_true, if_false, dispatchLoad,
      h2, show ¬ ((2 : Int) = 0) by decide, show ¬ ((2 : Int) = 1) by decide, if_true, hne,
      hw, List.singleton_append]
    rfl
  · intro calls s' h
    unfold GameEndedEvent at h
    simp only [he, Bool.not_true, Bool.false_eq_true, if_false] at h
    cases hd : dispatchLoad draw s with
    | none => simp [hd] at h
    | some r =>
      obtain ⟨hshape, haq, hdq⟩ := dispatchLoad_shape draw s r hd
      simp only [hd, Option.some.injEq, Prod.mk.injEq] at h
      obtain ⟨hcalls, _⟩ := h
      subst hcalls
      have hq : isLoadCommand "queue".toList = false := by decide
      unfold queueCalls
      rw [haq, hdq]
      generalize "queue".toList = Q at hq ⊢
      have hload : ∀ cmd, isLoadCommand cmd = true → cmd ≠ Q := by
        intro cmd hc e
        rw [e, hq] at hc
        cases hc
      rcases hshape with hl | ⟨cmd, hcmd, hl⟩
      · rw [hl]
        by_cases ha : s.settings.autoQueue = true
        · simp [ha, safeExecute_cmd]
        · simp [ha]
      · rw [hl]
        by_cases ha : s.settings.autoQueue = true
        · simp [ha, safeExecute_cmd]
        · simp [ha, safeExecute_cmd, hload cmd hcmd]

/-- Witness for `game_ended_commands`: training selected, index 1, delays 2 s and 5 s. -/
theorem game_ended_commands_witness :
    samplePlugin.enabled = true ∧ samplePlugin.settings.mapType = 1 ∧
    (GameEndedEvent (fun _ => 0) samplePlugin).map Prod.fst
      = some [HostCall.setTimeout "load_training TM_Wall".toList 2,
              HostCall.setTimeout "queue".toList 5] :=
  ⟨rfl, rfl, by
    rw [(game_ended_commands (fun _ => 0) samplePlugin rfl).2.1 rfl
      { code := "TM_Wall".toList, name := "Wall Shots".toList } (by decide)]
    decide⟩

/-- Witness for `game_ended_bounded`: the calls of the sample state hold one load command
and one queue command. -/
theorem game_ended_bounded_witness :
    GameEndedEvent (fun _ => 0) samplePlugin
      = some ([HostCall.setTimeout "load_training TM_Wall".toList 2,
               HostCall.setTimeout "queue".toList 5], samplePlugin) ∧
    (([HostCall.setTimeout "load_training TM_Wall".toList 2,
        HostCall.setTimeout "queue".toList 5] : List HostCall).filter
      (fun c => isLoadCommand c.cmd)).length ≤ 1 ∧
    (([HostCall.setTimeout "load_training TM_Wall".toList 2,
        HostCall.setTimeout "queue".toList 5] : List HostCall).filter
      (fun c => isQueueCommand c.cmd)).length ≤ 1 :=
  ⟨by decide,
    ((game_ended_bounded (fun _ => 0) samplePlugin).2.1
      [HostCall.setTimeout "load_training TM_Wall".toList 2,
       HostCall.setTimeout "queue".toList 5] samplePlugin (by decide)).1,
    ((game_ended_bounded (fun _ => 0) samplePlugin).2.1
      [HostCall.setTimeout "load_training TM_Wall".toList 2,
       HostCall.setTimeout "queue".toList 5] samplePlugin (by decide)).2.1⟩

/-! ### Reachable states and list accesses -/

/-- On a non-empty list, a shuffle state within the invariant yields an index below the
list length and stays within the invariant. -/
theorem NextTrainingIndex_inv (RLTraining : List TrainingEntry) (hne : RLTraining ≠ [])
    (draw : Nat → Nat) (b : ShuffleBag)
    (hidx : ∀ i ∈ b.trainingBag, i < RLTraining.length) :
    (NextTrainingIndex RLTraining draw b).1 < RLTraining.length ∧
    (NextTrainingIndex RLTraining draw b).2.trainingBagPos
      ≤ (NextTrainingIndex RLTraining draw b).2.trainingBag.length ∧
    (∀ i ∈ (NextTrainingIndex RLTraining draw b).2.trainingBag, i < RLTraining.length) := by
  have hlen : 0 < RLTraining.length := List.length_pos.2 hne
  by_cases hlt : b.trainingBagPos < b.trainingBag.length
  · have hbag : b.trainingBag ≠ [] := by intro e; simp [e] at hlt
    have hstep : NextTrainingIndex RLTraining draw b
        = (b.trainingBag[b.trainingBagPos],
           { trainingBag := b.trainingBag, trainingBagPos := b.trainingBagPos + 1 }) := by
      simp [NextTrainingIndex, hne, hbag, Nat.not_le.2 hlt, List.getD_eq_getElem?_getD, hlt]
    rw [hstep]
    exact ⟨hidx _ (List.getElem_mem hlt), hlt, hidx⟩
  · have hex : b.trainingBag.length ≤ b.trainingBagPos := Nat.not_lt.1 hlt
    have hbl := build_length RLTraining draw
    have hbp := build_perm RLTraining draw
    generalize hB : BuildTrainingShuffleBag RLTraining draw = B at hbl hbp
    obtain ⟨bag, p⟩ := B
    simp only at hbl hbp
    obtain ⟨hperm, hp0⟩ := hbp
    subst hp0
    have hbag : bag ≠ [] := by intro e; simp [e] at hbl; omega
    have hmem : ∀ i ∈ bag, i < RLTraining.length := by
      intro i hi
      exact List.mem_range.1 (hperm.mem_iff.1 hi)
    have hstep : NextTrainingIndex RLTraining draw b
        = (bag.getD 0 0, { trainingBag := bag, trainingBagPos := 1 }) := by
      simp [NextTrainingIndex, hne, hex, hB, hbag]
    rw [hstep]
    cases bag with
    | nil => exact absurd rfl hbag
    | cons x xs =>
      refine ⟨hmem x (List.mem_cons_self _ _), ?_, hmem⟩
      simp

/-- What a match-end event does to the training list and the shuffle state. -/
theorem GameEndedEvent_state (draw : Nat → Nat) (s : Plugin) (r : List HostCall × Plugin)
    (h : GameEndedEvent draw s = some r) :
    r.2.RLTraining = s.RLTraining ∧
    (r.2.bag = s.bag ∨
      (s.RLTraining ≠ [] ∧ r.2.bag = (NextTrainingIndex s.RLTraining draw s.bag).2)) := by
  unfold GameEndedEvent at h
  by_cases he : s.enabled = true
  · simp only [he, Bool.not_true, Bool.false_eq_true, if_false] at h
    cases hd : dispatchLoad draw s with
    | none => simp [hd] at h
    | some d =>
      simp only [hd, Option.some.injEq] at h
      subst h
      simp only
      unfold dispatchLoad at hd
      by_cases h0 : s.settings.mapType = 0
      · simp only [h0, if_true] at hd
        split at hd
        · cases hd
          exact ⟨rfl, Or.inl rfl⟩
        · cases hm : s.RLMaps[s.settings.currentIndex.toNat]? with
          | none => simp [hm] at hd
          | some m =>
            simp only [hm, Option.some.injEq] at hd
            subst hd
            exact ⟨rfl, Or.inl rfl⟩
      · by_cases h1 : s.settings.mapType = 1
        · simp only [h1, if_true, show ¬ ((1 : Int) = 0) by decide, if_false] at hd
          by_cases hne : s.RLTraining = []
          · simp only [hne, List.isEmpty_nil, if_true, Option.some.injEq] at hd
            subst hd
            exact ⟨rfl, Or.inl rfl⟩
          · have hemp : s.RLTraining.isEmpty = false := by
              cases hl : s.RLTraining with
              | nil => exact absurd hl hne
              | cons a l => rfl
            simp only [hemp, Bool.false_eq_true, if_false] at hd
            cases hm : s.RLTraining[(selectTrainingIndex draw s).1.toNat]? with
            | none => simp [hm] at hd
            | some t =>
              simp only [hm, Option.some.injEq] at hd
              subst hd
              refine ⟨rfl, ?_⟩
              simp only [selectTrainingIndex]
              by_cases hsh : s.trainingShuffleEnabled = true
              · exact Or.inr ⟨hne, by simp [hsh]⟩
              · exact Or.inl (by simp [hsh])
        · by_cases h2 : s.settings.mapType = 2
          · simp only [h2, if_true, show ¬ ((2 : Int) = 0) by decide,
              show ¬ ((2 : Int) = 1) by decide, if_false] at hd
            split at hd
            · cases hd
              exact ⟨rfl, Or.inl rfl⟩
            · cases hm : s.RLWorkshop[(clamp s.settings.currentWorkshopIndex 0
                  ((s.RLWorkshop.length : Int) - 1)).toNat]? with
              | none => simp [hm] at hd
              | some w =>
                simp only [hm, Option.some.injEq] at hd
                subst hd
                exact ⟨rfl, Or.inl rfl⟩
          · simp only [h0, h1, h2, if_false, Option.some.injEq] at hd
            subst hd
            exact ⟨rfl, Or.inl rfl⟩
  · have he' : s.enabled = false := by simpa using he
    simp only [he', Bool.not_false, if_true, Option.some.injEq] at h
    subst h
    exact ⟨rfl, Or.inl rfl⟩

/-- Within the invariant a match-end event never indexes the training list out of
bounds. -/
theorem not_outOfRange_of_inv (draw : Nat → Nat) (s : Plugin) (hinv : bagInvariant s) :
    ¬ shuffleIndexOutOfRange draw s := by
  rintro ⟨_, _, hne, _, hle⟩
  have := (NextTrainingIndex_inv s.RLTraining hne draw s.bag hinv.2).1
  omega

theorem GameEndedEvent_defined (draw : Nat → Nat) (s : Plugin) (hinv : bagInvariant s) :
    ∃ r, GameEndedEvent draw s = some r := by
  cases h : GameEndedEvent draw s with
  | some r => exact ⟨r, rfl⟩
  | none =>
    exfalso
    apply not_outOfRange_of_inv draw s hinv
    unfold GameEndedEvent at h
    by_cases he : s.enabled = true
    · simp only [he, Bool.not_true, Bool.false_eq_true, if_false] at h
      cases hd : dispatchLoad draw s with
      | some d => simp [hd] at h
      | none =>
        obtain ⟨h1, h2, h3, h4⟩ := (dispatchLoad_none_iff draw s).1 hd
        exact ⟨he, h1, h2, h3, h4⟩
    · have he' : s.enabled = false := by simpa using he
      simp [he'] at h

theorem GameEndedEvent_inv (draw : Nat → Nat) (s : Plugin) (r : List HostCall × Plugin)
    (hinv : bagInvariant s) (h : GameEndedEvent draw s = some r) : bagInvariant r.2 := by
  obtain ⟨hl, hb⟩ := GameEndedEvent_state draw s r h
  unfold bagInvariant
  rw [hl]
  rcases hb with hb | ⟨hne, hb⟩
  · rw [hb]
    exact hinv
  · rw [hb]
    exact (NextTrainingIndex_inv s.RLTraining hne draw s.bag hinv.2).2

theorem ToggleAutoShuffle_inv (draw : Nat → Nat) (s : Plugin) (hinv : bagInvariant s) :
    bagInvariant (ToggleAutoShuffle draw s) := by
  unfold ToggleAutoShuffle
  split
  · have hbp := build_perm s.RLTraining draw
    refine ⟨?_, ?_⟩
    · simp only [hbp.2]
      exact Nat.zero_le _
    · intro i hi
      exact List.mem_range.1 (hbp.1.mem_iff.1 hi)
  · exact hinv

theorem AddTrainingMap_length (opened : Bool) (code name : Str) (st : TrainingStore) :
    st.RLTraining.length ≤ (AddTrainingMap opened code name st).RLTraining.length := by
  unfold AddTrainingMap
  split
  · simp
  · exact Nat.le_refl _

/-- Every step is defined on a state within the invariant and leads to such a state. -/
theorem applyStep_inv (s : Plugin) (step : Step) (hinv : bagInvariant s) :
    ∃ s1, applyStep s step = some s1 ∧ bagInvariant s1 := by
  cases step with
  | addTrainingMap opened code name file =>
    refine ⟨_, rfl, hinv.1, ?_⟩
    intro i hi
    exact Nat.lt_of_lt_of_le (hinv.2 i hi)
      (AddTrainingMap_length opened code name { RLTraining := s.RLTraining, trainingFile := file })
  | toggleAutoShuffle draw => exact ⟨_, rfl, ToggleAutoShuffle_inv draw s hinv⟩
  | gameEnded draw =>
    obtain ⟨r, hr⟩ := GameEndedEvent_defined draw s hinv
    exact ⟨r.2, by simp [applyStep, hr], GameEndedEvent_inv draw s r hinv hr⟩
  | configure enabled settings => exact ⟨_, rfl, hinv⟩

theorem runSteps_inv (steps : List Step) (s : Plugin) (hinv : bagInvariant s) :
    ∃ s1, runSteps steps s = some s1 ∧ bagInvariant s1 := by
  induction steps generalizing s with
  | nil => exact ⟨s, rfl, hinv⟩
  | cons step rest ih =>
    obtain ⟨s1, h1, hinv1⟩ := applyStep_inv s step hinv
    obtain ⟨s2, h2, hinv2⟩ := ih s1 hinv1
    exact ⟨s2, by simp [runSteps, h1, h2], hinv2⟩
theorem indexInt_of_lt {α : Type} (l : List α) (i : Int) (h0 : 0 ≤ i)
    (h1 : i < (l.length : Int)) : ∃ x, indexInt l i = some x := by
  have hlt : i.toNat < l.length := by omega
  have hn : ¬ i < 0 := by omega
  exact ⟨l[i.toNat], by simp [indexInt, hn, List.getElem?_eq_getElem hlt]⟩

theorem indexInt_clamp {α : Type} (l : List α) (v : Int) (h : l ≠ []) :
    ∃ x, indexInt l (clamp v 0 ((l.length : Int) - 1)) = some x := by
  have hpos : 0 < l.length := List.length_pos.2 h
  obtain ⟨h1, h2⟩ := clamp_range v ((l.length : Int) - 1) (by omega)
  exact indexInt_of_lt l _ h1 (by omega)

/-- C21: every state reached from the start-up state (settings, training list and workshop
list as loaded, empty bag, cursor 0) by the steps add-training-map, toggle-auto-shuffle,
match-end event and arbitrary changes of the enable flag and the settings exists (no step
is undefined) and has the cursor at most the bag length and every bag index below the
training list length; there a match-end event has a defined outcome and every index it
uses to read the freeplay, training (shuffle on or off) or workshop list is within that
list's bounds, whatever the persisted selection indices are. -/
theorem match_end_in_bounds (RLMaps : List MapEntry) (settingsFile trainingFile : Option Str)
    (fs : FileSystem) (steps : List Step) :
    ∃ s, runSteps steps (onLoad RLMaps settingsFile trainingFile fs) = some s ∧
      s.bag.trainingBagPos ≤ s.bag.trainingBag.length ∧
      (∀ i ∈ s.bag.trainingBag, i < s.RLTraining.length) ∧
      ∀ draw : Nat → Nat,
        (∃ r, GameEndedEvent draw s = some r) ∧
        (¬ (s.settings.currentIndex < 0 ∨ s.settings.currentIndex ≥ (s.RLMaps.length : Int)) →
          ∃ m, indexInt s.RLMaps s.settings.currentIndex = some m) ∧
        (s.RLTraining ≠ [] →
          ∃ t, indexInt s.RLTraining (selectTrainingIndex draw s).1 = some t) ∧
        (s.RLWorkshop ≠ [] →
          ∃ w, indexInt s.RLWorkshop
            (clamp s.settings.currentWorkshopIndex 0 ((s.RLWorkshop.length : Int) - 1))
              = some w) := by
  have hinit : bagInvariant (onLoad RLMaps settingsFile trainingFile fs) := by
    refine ⟨Nat.le_refl _, ?_⟩
    intro i hi
    cases hi
  obtain ⟨s, hs, hinv⟩ := runSteps_inv steps _ hinit
  refine ⟨s, hs, hinv.1, hinv.2, fun draw => ⟨GameEndedEvent_defined draw s hinv, ?_, ?_, ?_⟩⟩
  · intro hr
    exact indexInt_of_lt _ _ (by omega) (by omega)
  · intro hne
    unfold selectTrainingIndex
    by_cases hsh : s.trainingShuffleEnabled = true
    · simp only [hsh, if_true]
      have := (NextTrainingIndex_inv s.RLTraining hne draw s.bag hinv.2).1
      exact indexInt_of_lt _ _ (by omega) (by omega)
    · simp only [hsh, Bool.false_eq_true, if_false]
      exact indexInt_clamp _ _ hne
  · intro hne
    exact indexInt_clamp _ _ hne

/-- Witness for `match_end_in_bounds`: start-up with a persisted training index 5 and three
training packs, then enabling, switching auto-shuffle on, a match end, adding a fourth pack
and two more match ends. -/
theorem match_end_in_bounds_witness :
    ∃ s, runSteps
        [Step.configure true ⟨false, 1, 0, 0, 0, 0, 0, 5, 0⟩,
         Step.toggleAutoShuffle (fun n => n / 2), Step.gameEnded (fun _ => 0),
         Step.addTrainingMap true "D".toList "d".toList none,
         Step.gameEnded (fun _ => 0), Step.gameEnded (fun _ => 0)]
        (onLoad [] (some "0\n1\n0\n0\n0\n0\n0\n5\n0\n".toList)
          (some "A,a\nB,b\nC,c\n".toList)
          ⟨fun _ => Probe.notFound, fun _ => [], fun _ => none⟩) = some s ∧
      s.bag.trainingBagPos ≤ s.bag.trainingBag.length ∧
      (∀ i ∈ s.bag.trainingBag, i < s.RLTraining.length) :=
  let ⟨s, h1, h2, h3, _⟩ := match_end_in_bounds [] (some "0\n1\n0\n0\n0\n0\n0\n5\n0\n".toList)
    (some "A,a\nB,b\nC,c\n".toList) ⟨fun _ => Probe.notFound, fun _ => [], fun _ => none⟩
    [Step.configure true ⟨false, 1, 0, 0, 0, 0, 0, 5, 0⟩,
     Step.toggleAutoShuffle (fun n => n / 2), Step.gameEnded (fun _ => 0),
     Step.addTrainingMap true "D".toList "d".toList none,
     Step.gameEnded (fun _ => 0), Step.gameEnded (fun _ => 0)]
  ⟨s, h1, h2, h3⟩

/-- C22, the code at the failing input: with the settings file `0 1 0 0 0 0 0 5 0` (map
type Training, training index 5) and a training list file of three entries, the start-up
sequence leaves `currentTrainingIndex = 5` beside a list of length 3, and the read
`RLTraining[currentTrainingIndex]` of the combo preview is out of bounds; the same holds
for a persisted index `-1`, while a persisted index 1 reads the second entry. -/
theorem persisted_training_index_out_of_bounds :
    ((onLoad [] (some "0\n1\n0\n0\n0\n0\n0\n5\n0\n".toList) (some "A,a\nB,b\nC,c\n".toList)
        ⟨fun _ => Probe.notFound, fun _ => [], fun _ => none⟩).settings.mapType = 1 ∧
      (onLoad [] (some "0\n1\n0\n0\n0\n0\n0\n5\n0\n".toList) (some "A,a\nB,b\nC,c\n".toList)
        ⟨fun _ => Probe.notFound, fun _ => [], fun _ => none⟩).RLTraining.length = 3 ∧
      (onLoad [] (some "0\n1\n0\n0\n0\n0\n0\n5\n0\n".toList) (some "A,a\nB,b\nC,c\n".toList)
        ⟨fun _ => Probe.notFound, fun _ => [], fun _ => none⟩).settings.currentTrainingIndex
        = 5 ∧
      trainingComboPreview
        (onLoad [] (some "0\n1\n0\n0\n0\n0\n0\n5\n0\n".toList) (some "A,a\nB,b\nC,c\n".toList)
          ⟨fun _ => Probe.notFound, fun _ => [], fun _ => none⟩) = none) ∧
    ((onLoad [] (some "0\n1\n0\n0\n0\n0\n0\n-1\n0\n".toList) (some "A,a\nB,b\nC,c\n".toList)
        ⟨fun _ => Probe.notFound, fun _ => [], fun _ => none⟩).settings.currentTrainingIndex
        = -1 ∧
      trainingComboPreview
        (onLoad [] (some "0\n1\n0\n0\n0\n0\n0\n-1\n0\n".toList) (some "A,a\nB,b\nC,c\n".toList)
          ⟨fun _ => Probe.notFound, fun _ => [], fun _ => none⟩) = none) ∧
    trainingComboPreview
      (onLoad [] (some "0\n1\n0\n0\n0\n0\n0\n1\n0\n".toList) (some "A,a\nB,b\nC,c\n".toList)
        ⟨fun _ => Probe.notFound, fun _ => [], fun _ => none⟩) = some "b".toList := by
  decide

end SuiteSpot
